import Mathlib

/-!
Equationzhao/urlencode: a verification development of `encode.go`.

A shallow embedding of `Convert2Urlencoded` / `convert2urlencoded` and of the
helpers `isEmptyValue`, `splitTags`, `tagsContain`, followed by theorems about
them.

Scope of the embedding.

Go values are represented by the inductive type `Value`; each constructor stands
for the values of a family of Go types as the encoder can tell them apart by
reflection (`reflect.Kind`, type switches, type assertions).

* Go strings are represented by Lean strings (sequences of Unicode code points,
  i.e. valid UTF-8).
* Defined (named) types are represented only for `time.Duration`, `time.Time`
  and for types implementing `Urlencoded` (constructor `custom`); every other
  scalar is of a predeclared type, and no other type carries `String`, `Error`,
  `Format` or `IsZero` methods.
* Maps are keyed by strings and carry their entries in the order in which
  `MapRange` visits them.
* Slices and arrays share the constructor `list`.
* Standard-library renderings that are not re-implemented here are carried by
  the value: the `fmt` text of floats, complex numbers, channels, functions,
  non-nil pointers, slices, maps and structs; the `Format`, `String` and `IsZero`
  results of a `time.Time`; the `%f` renderings of a `time.Duration`.
  `url.QueryEscape`, `strings.Split`, `strings.Join`, `strings.Contains`,
  `reflect.StructTag.Get` and `time.Duration.String` are implemented.
* A Go runtime panic is the result `Except.error Fault.panic`.
* The recursion of `convert2urlencoded` is driven by a fuel counter
  (`convert2urlencodedFuel`); `convert2urlencoded` supplies `depth + 1` units,
  which is always enough: the function satisfies the recursive equation of the
  Go function (`convert2urlencoded_unfold`) and never reports `outOfFuel`
  (`convert2urlencoded_total`).
-/

namespace Urlencode

/-! ## Strings and `net/url` -/

/-- The table `upperhex` of `net/url`. -/
def upperhex (n : Nat) : Char :=
  "0123456789ABCDEF".data.getD n '0'

/-- UTF-8 encoding of a code point, as a list of byte values. -/
def utf8Bytes (c : Char) : List Nat :=
  let n := c.toNat
  if n < 0x80 then [n]
  else if n < 0x800 then [0xC0 + n / 64, 0x80 + n % 64]
  else if n < 0x10000 then [0xE0 + n / 4096, 0x80 + (n / 64) % 64, 0x80 + n % 64]
  else [0xF0 + n / 262144, 0x80 + (n / 4096) % 64, 0x80 + (n / 64) % 64, 0x80 + n % 64]

/-- The function `shouldEscape(c, encodeQueryComponent)` of `net/url`: everything
but ASCII letters, digits and the marks `-`, `_`, `.`, `~` is escaped. -/
def shouldEscape (c : Char) : Bool :=
  if c.isAlphanum then false
  else if c = '-' ∨ c = '_' ∨ c = '.' ∨ c = '~' then false
  else true

/-- The escape of one byte: `%` followed by two upper-case hex digits. -/
def escapeByte (b : Nat) : List Char :=
  ['%', upperhex (b / 16), upperhex (b % 16)]

/-- What `url.QueryEscape` writes for one character of its input. -/
def escapeChar (c : Char) : List Char :=
  if shouldEscape c then
    if c = ' ' then ['+'] else (utf8Bytes c).flatMap escapeByte
  else [c]

/-- The function `url.QueryEscape`. -/
def QueryEscape (s : String) : String :=
  ⟨s.data.flatMap escapeChar⟩

/-- Splitting a character sequence at every occurrence of `sep`. -/
def splitChars (sep : Char) : List Char → List (List Char)
  | [] => [[]]
  | c :: cs =>
    if c = sep then [] :: splitChars sep cs
    else
      match splitChars sep cs with
      | [] => [[c]]
      | w :: ws => (c :: w) :: ws

/-- The function `splitTags`, that is `strings.Split(tags, ",")`. -/
def splitTags (tags : String) : List String :=
  (splitChars ',' tags.data).map String.mk

/-- The function `tagsContain`. -/
def tagsContain (tags : List String) (tag : String) : Bool :=
  match tags with
  | [] => false
  | t :: ts => if t = tag then true else tagsContain ts tag

/-- The function `strings.Contains(s, ",")`. -/
def containsComma (s : String) : Bool :=
  s.data.contains ','

/-- The function `strings.Join`. -/
def Join : List String → String → String
  | [], _ => ""
  | [a], _ => a
  | a :: b :: rest, sep => a ++ sep ++ Join (b :: rest) sep

/-! ## Constants of `encode.go` and of package `time` -/

def jsonTag : String := "json"

def urlTag : String := "urlencoded"

def timeFormatTag : String := "time_format"

def omitemptyTag : String := "omitempty"

def timeDurationFormatTag : String := "time_duration_format"

def humanReadableTag : String := "normal"

/-- The layout `time.RFC3339`. -/
def RFC3339 : String := "2006-01-02T15:04:05Z07:00"

/-! ## `time.Duration` and `time.Time` -/

/-- The loop of `fmtFrac` in package `time`: `i` digits of `v` are consumed from
the right; a digit is written (prepended) once a non-zero digit has been seen. -/
def fmtFracLoop : Nat → Nat → Bool → List Char → List Char × Nat × Bool
  | 0, v, print, buf => (buf, v, print)
  | i + 1, v, print, buf =>
    let digit := v % 10
    let print := print || digit != 0
    let buf := if print then Char.ofNat (digit + 48) :: buf else buf
    fmtFracLoop i (v / 10) print buf

/-- The function `fmtFrac` of package `time`: the fraction `v / 10^prec` without
trailing zeros, written in front of `buf`, and the integral part of `v`. -/
def fmtFrac (buf : List Char) (v : Nat) (prec : Nat) : List Char × Nat :=
  match fmtFracLoop prec v false buf with
  | (buf, v, print) => (if print then '.' :: buf else buf, v)

/-- The function `fmtInt` of package `time`: decimal digits of `v` written in
front of `buf`. -/
def fmtInt (buf : List Char) (v : Nat) : List Char :=
  (Nat.repr v).data ++ buf

/-- The method `time.Duration.String`, on a number of nanoseconds. -/
def durationString (d : Int) : String :=
  let u := d.natAbs
  let body : List Char :=
    if u < 1000000000 then
      if u = 0 then ['0', 's']
      else if u < 1000 then
        fmtInt ['n', 's'] u
      else if u < 1000000 then
        match fmtFrac ['µ', 's'] u 3 with
        | (buf, u) => fmtInt buf u
      else
        match fmtFrac ['m', 's'] u 6 with
        | (buf, u) => fmtInt buf u
    else
      match fmtFrac ['s'] u 9 with
      | (buf, u) =>
        let buf := fmtInt buf (u % 60)
        let u := u / 60
        if u > 0 then
          let buf := fmtInt ('m' :: buf) (u % 60)
          let u := u / 60
          if u > 0 then fmtInt ('h' :: buf) u else buf
        else buf
  ⟨if d < 0 then '-' :: body else body⟩

/-- A `time.Duration`: its count of nanoseconds (a signed 64-bit integer) and the
`%f` renderings of `Seconds()`, `Minutes()`, `Hours()` and `Hours()/24`, which
are floating-point computations. -/
structure Duration where
  ns : Int
  secondsF : String
  minutesF : String
  hoursF : String
  daysF : String

/-- Integer division of Go (`/` on `int64`), truncating toward zero. -/
def goDiv (a b : Int) : Int := Int.tdiv a b

/-- The rendering chosen by the `time_duration_format` tag of a field
(lines 281-300 of `encode.go`). The second literal of line 284 is, in the source
file, the three characters U+00CE, U+00BC and `s`. -/
def formatDuration (format : String) (td : Duration) : String :=
  if format = "ns" then toString td.ns ++ "ns"
  else if format = "us" ∨ format = "Î¼s" then toString (goDiv td.ns 1000) ++ "us"
  else if format = "ms" then toString (goDiv td.ns 1000000) ++ "ms"
  else if format = "s" ∨ format = "second" then td.secondsF ++ "s"
  else if format = "m" ∨ format = "minute" then td.minutesF ++ "m"
  else if format = "h" ∨ format = "hour" then td.hoursF ++ "h"
  else if format = "d" ∨ format = "day" then td.daysF ++ "d"
  else if format = humanReadableTag ∨ format = "" ∨ format = "human" then durationString td.ns
  else durationString td.ns

/-- A `time.Time`, through the three methods the encoder and `fmt` call on it. -/
structure Time where
  Format : String → String
  String : String
  IsZero : Bool

/-! ## Values -/

/-- A `reflect.StructTag`: its key/value pairs in order, values unquoted. -/
abbrev StructTag := List (String × String)

/-- The method `reflect.StructTag.Get`: the value of the first pair with the
given key, the empty string when there is none. -/
def StructTag.Get : StructTag → String → String
  | [], _ => ""
  | (k, v) :: rest, key => if k = key then v else StructTag.Get rest key

mutual
/-- Go values, as far as the encoder distinguishes them. The `text` arguments are
what package `fmt` prints for the value with the verb `%v`. -/
inductive Value where
  /-- a `string` -/
  | str (s : String)
  /-- an `int`, `int8`, `int16`, `int32` or `int64` -/
  | int (n : Int)
  /-- a `uint`, `uint8`, `uint16`, `uint32`, `uint64` or `uintptr` -/
  | uint (n : Nat)
  /-- a `bool` -/
  | bool (b : Bool)
  /-- a `float32` or `float64`, with the result of comparing it to zero -/
  | float (text : String) (isZero : Bool)
  /-- a `complex64` or `complex128` -/
  | complex (text : String)
  /-- a `time.Duration` -/
  | duration (d : Duration)
  /-- a `time.Time` -/
  | time (t : Time)
  /-- a channel, function or `unsafe.Pointer` -/
  | other (text : String)
  /-- a value whose type implements `Urlencoded`: the string returned by its
  method `Convert2Urlencoded`, and the value as reflection sees it -/
  | custom (encoded : String) (base : Value)
  /-- a nil pointer -/
  | nilPtr
  /-- a non-nil pointer to `elem` -/
  | ptr (text : String) (elem : Value)
  /-- a nil value in a slot of interface type -/
  | nilIface
  /-- a slot of interface type holding `dyn` -/
  | iface (dyn : Value)
  /-- a slice or array; `basic` tells that its type is `[]byte` or `[]rune` -/
  | list (text : String) (basic : Bool) (elems : List Value)
  /-- a map with string keys, entries in iteration order -/
  | map (text : String) (entries : List (String × Value))
  /-- a struct other than `time.Time` -/
  | struct (text : String) (fields : List StructField)
/-- A struct field: the `reflect.StructField` attributes `Name`, `PkgPath`
(empty iff the field is exported), `Anonymous`, `Tag`, and the field's value. -/
inductive StructField where
  | mk (Name : String) (PkgPath : String) (Anonymous : Bool) (Tag : StructTag) (value : Value)
end

def StructField.Name : StructField → String
  | .mk n _ _ _ _ => n

def StructField.PkgPath : StructField → String
  | .mk _ p _ _ _ => p

def StructField.Anonymous : StructField → Bool
  | .mk _ _ a _ _ => a

def StructField.Tag : StructField → StructTag
  | .mk _ _ _ t _ => t

def StructField.value : StructField → Value
  | .mk _ _ _ _ v => v

/-- The kinds of `reflect.Kind` that the encoder tells apart. `Slice` stands for
`reflect.Slice` and `reflect.Array`, `Int`, `Uint` and `Float` for all widths,
`Other` for `Chan`, `Func` and `UnsafePointer`. -/
inductive Kind where
  | Invalid | String | Int | Uint | Bool | Float | Complex
  | Pointer | Interface | Slice | Map | Struct | Other
  deriving DecidableEq, Repr

/-- The method `Kind()` of a `reflect.Value` / `reflect.Type`. -/
def Value.Kind : Value → Kind
  | .str _ => .String
  | .int _ => .Int
  | .uint _ => .Uint
  | .bool _ => .Bool
  | .float _ _ => .Float
  | .complex _ => .Complex
  | .duration _ => .Int
  | .time _ => .Struct
  | .other _ => .Other
  | .custom _ b => b.Kind
  | .nilPtr => .Pointer
  | .ptr _ _ => .Pointer
  | .nilIface => .Interface
  | .iface _ => .Interface
  | .list _ _ _ => .Slice
  | .map _ _ => .Map
  | .struct _ _ => .Struct

/-- The method `Interface()` of a `reflect.Value`: the value as an `any`. A slot
of interface type yields its dynamic value, `none` (`nil`) when it is empty. -/
def Value.Interface : Value → Option Value
  | .nilIface => none
  | .iface x => some x
  | v => some v

/-- The text `fmt.Sprint(v)` / `fmt.Sprintf("%v", v)` for a value. -/
def Value.Sprint : Value → String
  | .str s => s
  | .int n => toString n
  | .uint n => toString n
  | .bool b => if b then "true" else "false"
  | .float text _ => text
  | .complex text => text
  | .duration d => durationString d.ns
  | .time t => t.String
  | .other text => text
  | .custom _ b => b.Sprint
  | .nilPtr => "<nil>"
  | .ptr text _ => text
  | .nilIface => "<nil>"
  | .iface x => x.Sprint
  | .list text _ _ => text
  | .map text _ => text
  | .struct text _ => text

/-- The text `fmt.Sprintf("%v", a)` for an `any`. -/
def SprintAny : Option Value → String
  | none => "<nil>"
  | some v => v.Sprint

/-- The text `fmt.Sprint(v)` for a `reflect.Value` that may be the zero
`reflect.Value` (`none`). -/
def SprintReflect : Option Value → String
  | none => "<invalid reflect.Value>"
  | some v => v.Sprint

/-- Failures of a run: a Go runtime panic, or the fuel of the model running out. -/
inductive Fault where
  | panic
  | outOfFuel
  deriving DecidableEq, Repr

/-- The function `isEmptyValue`. `canInterface` tells whether `v.Interface()` is
allowed, i.e. whether the value was not reached through an unexported field; the
call panics otherwise. -/
def isEmptyValue (canInterface : Bool) : Value → Except Fault Bool
  | .str s => .ok (s.length == 0)
  | .list _ _ es => .ok (es.length == 0)
  | .map _ es => .ok (es.length == 0)
  | .bool b => .ok (!b)
  | .int n => .ok (n == 0)
  | .duration d => .ok (d.ns == 0)
  | .uint n => .ok (n == 0)
  | .float _ z => .ok z
  | .nilIface => .ok true
  | .nilPtr => .ok true
  | .iface _ => .ok false
  | .ptr _ _ => .ok false
  | .custom _ b => isEmptyValue canInterface b
  | .time t => if canInterface then .ok t.IsZero else .error .panic
  | .complex _ => if canInterface then .ok false else .error .panic
  | .other _ => if canInterface then .ok false else .error .panic
  | .struct _ _ => if canInterface then .ok false else .error .panic

/-- The loop `for v.Kind() == reflect.Ptr` of `convert2urlencoded`: pointers are
followed until a non-pointer or a nil pointer is reached. -/
def deref : Value → Value
  | .ptr _ e => deref e
  | .custom _ b => deref b
  | v => v

/-- The branches of the type switches of `convert2urlencoded` on a dynamic type. -/
inductive TypeCase where
  | basic | duration | time | default
  deriving DecidableEq, Repr

/-- The type switch `switch x.(type)` with the cases "basic type",
`time.Duration`, `time.Time` and `default`. -/
def typeSwitch : Option Value → TypeCase
  | some (.str _) => .basic
  | some (.int _) => .basic
  | some (.uint _) => .basic
  | some (.float _ _) => .basic
  | some (.complex _) => .basic
  | some (.bool _) => .basic
  | some (.list _ true _) => .basic
  | some (.duration _) => .duration
  | some (.time _) => .time
  | _ => .default

/-! ## The encoder -/

/-- The result of a run of the encoder. -/
abbrev Result := Except Fault String

/-- Field name resolution, lines 217-246 of `encode.go`: the key `name` and the
slice `tags` (nil unless the tag value holds a comma) of a field, or `none` when
the loop `continue`s because the `json` tag is `-`. -/
def resolveName (fieldi : StructField) : Option (String × List String) :=
  let name := fieldi.Tag.Get urlTag
  if name = "" then
    let name := fieldi.Tag.Get jsonTag
    if name = "-" then none
    else if name = "" then some (fieldi.Name, [])
    else if containsComma name then
      let tags := splitTags name
      some (tags.headD "", tags)
    else some (name, [])
  else
    if containsComma name then
      let tags := splitTags name
      let name := tags.headD ""
      some (if name = "" then fieldi.Name else name, tags)
    else some (name, [])

/-- The test of line 249: the field's static kind is `Struct`, `Map`, `Slice` or
`Array`. -/
def isCompositeKind (k : Kind) : Bool :=
  k = .Struct || k = .Map || k = .Slice

/-- The call `v.Field(i).Interface()`: it panics when the field is unexported
(which at that point means an embedded field of unexported type). -/
def fieldInterface (fieldi : StructField) : Except Fault (Option Value) :=
  if fieldi.PkgPath = "" then .ok fieldi.value.Interface else .error .panic

/-- The condition of line 266,
`!tagsContain(tags, omitemptyTag) || !isEmptyValue(v.Field(i))`. -/
def keepField (tags : List String) (fieldi : StructField) : Except Fault Bool :=
  if !tagsContain tags omitemptyTag then .ok true
  else
    match isEmptyValue (fieldi.PkgPath = "") fieldi.value with
    | .ok b => .ok (!b)
    | .error e => .error e

/-- Lines 267-304 and the inner `Sprintf` of line 309: the text of the value of a
non-composite field. A `time.Duration` is rendered after the field's
`time_duration_format` tag, every other value by `%v`. -/
def fieldValueText (fieldi : StructField) (a : Option Value) : String :=
  match a with
  | some (.duration td) => formatDuration (fieldi.Tag.Get timeDurationFormatTag) td
  | _ => SprintAny a

/-- One iteration of the field loop of the `reflect.Struct` case (lines 211-310).
The result is the piece appended to `pieces`, or `none` when nothing is appended;
`rec` is the recursive call of `convert2urlencoded`. -/
def fieldPiece (rec : Option Value → Bool → Result) (fieldi : StructField) :
    Except Fault (Option String) :=
  if fieldi.PkgPath ≠ "" ∧ fieldi.Anonymous = false then .ok none
  else
    match resolveName fieldi with
    | none => .ok none
    | some (name, tags) =>
      if isCompositeKind fieldi.value.Kind then
        match fieldInterface fieldi with
        | .error e => .error e
        | .ok (some (.time tt)) =>
          let format := fieldi.Tag.Get timeFormatTag
          let format := if format = "" then RFC3339 else format
          .ok (some (name ++ "=" ++ QueryEscape (tt.Format format)))
        | .ok a =>
          match rec a true with
          | .error e => .error e
          | .ok s => .ok (some s)
      else
        match keepField tags fieldi with
        | .error e => .error e
        | .ok false => .ok none
        | .ok true =>
          match fieldInterface fieldi with
          | .error e => .error e
          | .ok a =>
            .ok (some (QueryEscape name ++ "=" ++ QueryEscape (fieldValueText fieldi a)))

/-- The field loop of the `reflect.Struct` case: the slice `pieces`. -/
def structPieces (rec : Option Value → Bool → Result) :
    List StructField → Except Fault (List String)
  | [] => .ok []
  | fieldi :: rest =>
    match fieldPiece rec fieldi with
    | .error e => .error e
    | .ok none => structPieces rec rest
    | .ok (some piece) =>
      match structPieces rec rest with
      | .error e => .error e
      | .ok pieces => .ok (piece :: pieces)

/-- The method `Elem()` of a `reflect.Value` of pointer kind; `none` is the zero
`reflect.Value`, which `Elem()` returns for a nil pointer. -/
def Value.Elem : Value → Option Value
  | .ptr _ e => some e
  | .custom _ b => b.Elem
  | _ => none

/-- The kind of a `reflect.Value` that may be the zero `reflect.Value`. -/
def kindOf : Option Value → Kind
  | none => .Invalid
  | some v => v.Kind

/-- The `reflect.Value` returned by `iter.Value()`, seen as a Go value: a struct
of package `reflect` with the unexported fields `typ_` and `ptr` and the embedded
field `flag` of the unexported type `flag` (a `uintptr`). The map case hands this
struct, not the map element, to the recursive call (lines 148, 150). -/
def reflectValueObject : Value :=
  .struct "" [
    .mk "typ_" "reflect" false [] (.other ""),
    .mk "ptr" "reflect" false [] (.other ""),
    .mk "flag" "reflect" true [] (.uint 0)]

/-- One iteration of the loop of the `reflect.Map` case (lines 133-205) for the
entry `key`, `val`; `l` is the counter after `l--`, the number of entries still
to come. -/
def mapEntry (rec : Option Value → Bool → Result) (key : String) (val : Value) (l : Nat) :
    Result :=
  let v : Option Value := if val.Kind = .Pointer then val.Elem else some val
  match kindOf v with
  | .Struct | .Map =>
    if l > 0 then rec (some reflectValueObject) false
    else rec (some reflectValueObject) true
  | .Interface =>
    let x : Option Value := v.bind Value.Interface
    match x with
    | some (.duration d) =>
      if l > 0 then .ok (key ++ "=" ++ QueryEscape (durationString d.ns) ++ "&")
      else .ok (key ++ "=" ++ QueryEscape (durationString d.ns))
    | some (.time tt) =>
      if l > 0 then .ok (key ++ "=" ++ QueryEscape (tt.Format RFC3339) ++ "&")
      else .ok (key ++ "=" ++ QueryEscape (tt.Format RFC3339))
    | _ =>
      match typeSwitch x with
      | .basic =>
        if l > 0 then .ok (key ++ "=" ++ QueryEscape (SprintReflect v) ++ "&")
        else .ok (key ++ "=" ++ QueryEscape (SprintReflect v))
      | _ =>
        if l > 0 then rec x false else rec x true
  | _ =>
    if l > 0 then .ok (key ++ "=" ++ QueryEscape (SprintReflect v) ++ "&")
    else .ok (key ++ "=" ++ QueryEscape (SprintReflect v))

/-- The loop of the `reflect.Map` case: the entries are visited in order and
their contributions are written to `content` one after the other. -/
def mapLoop (rec : Option Value → Bool → Result) : List (String × Value) → Result
  | [] => .ok ""
  | (key, val) :: rest =>
    match mapEntry rec key val rest.length with
    | .error e => .error e
    | .ok s =>
      match mapLoop rec rest with
      | .error e => .error e
      | .ok r => .ok (s ++ r)

/-- The `reflect.Slice, reflect.Array` case (lines 326-334): nothing for length 0,
otherwise every element but the last with `isTheLast = false` and the last one
with the flag of the caller. -/
def sliceLoop (rec : Option Value → Bool → Result) : List Value → Bool → Result
  | [], _ => .ok ""
  | [e], isTheLast => rec e.Interface isTheLast
  | e :: e2 :: rest, isTheLast =>
    match rec e.Interface false with
    | .error err => .error err
    | .ok s =>
      match sliceLoop rec (e2 :: rest) isTheLast with
      | .error err => .error err
      | .ok r => .ok (s ++ r)

/-- The body of `convert2urlencoded` (lines 84-382), with `rec` for its recursive
calls. The cases follow the `switch t.Kind()` of line 116 on the dereferenced
value; for a `time.Time` the field loop of the `reflect.Struct` case finds only
unexported fields, so that `pieces` stays empty and line 313 applies. -/
def convertStep (rec : Option Value → Bool → Result) (i : Option Value) (isTheLast : Bool) :
    Result :=
  match i with
  | none => .ok ""
  | some (.custom encoded _) => .ok encoded
  | some i =>
    match deref i with
    | .str s =>
      if isTheLast then .ok ("=" ++ QueryEscape s)
      else .ok ("=" ++ QueryEscape s ++ "&")
    | .map _ entries => mapLoop rec entries
    | .time t =>
      let content := "=" ++ QueryEscape (t.Format RFC3339)
      if !isTheLast && content ≠ "" then .ok (content ++ "&") else .ok content
    | .struct _ fields =>
      match structPieces rec fields with
      | .error e => .error e
      | .ok pieces =>
        let content := Join pieces "&"
        if !isTheLast && content ≠ "" then .ok (content ++ "&") else .ok content
    | .list _ _ elems => sliceLoop rec elems isTheLast
    | .nilIface => .ok ""
    | .iface x =>
      match x with
      | .duration d =>
        if !isTheLast then .ok ("=" ++ QueryEscape (durationString d.ns) ++ "&")
        else .ok ("=" ++ QueryEscape (durationString d.ns))
      | _ =>
        match typeSwitch (some x) with
        | .basic =>
          if !isTheLast then .ok ("=" ++ QueryEscape (Value.iface x).Sprint ++ "&")
          else .ok ("=" ++ QueryEscape (Value.iface x).Sprint)
        | _ =>
          if !isTheLast then .ok ("=" ++ QueryEscape (Value.iface x).Sprint ++ "&")
          else .ok ("=" ++ QueryEscape (Value.iface x).Sprint)
    | v =>
      if !isTheLast then .ok ("=" ++ QueryEscape v.Sprint ++ "&")
      else .ok ("=" ++ QueryEscape v.Sprint)

/-- The function `convert2urlencoded` with a bound on the depth of its recursion. -/
def convert2urlencodedFuel : Nat → Option Value → Bool → Result
  | 0, _, _ => .error .outOfFuel
  | fuel + 1, i, isTheLast => convertStep (convert2urlencodedFuel fuel) i isTheLast

mutual
/-- The nesting depth of a value: a bound on the depth of the recursion of
`convert2urlencoded` on it. -/
def Value.depth : Value → Nat
  | .custom _ b => b.depth
  | .ptr _ e => e.depth
  | .iface x => x.depth
  | .list _ _ es => depthList es + 1
  | .map _ es => depthEntries es + 2
  | .struct _ fs => depthFields fs + 1
  | _ => 0
/-- The largest depth among the elements of a slice. -/
def depthList : List Value → Nat
  | [] => 0
  | v :: vs => max v.depth (depthList vs)
/-- The largest depth among the values of a map. -/
def depthEntries : List (String × Value) → Nat
  | [] => 0
  | (_, v) :: vs => max v.depth (depthEntries vs)
/-- The largest depth among the fields of a struct. -/
def depthFields : List StructField → Nat
  | [] => 0
  | f :: fs => max f.depth (depthFields fs)
/-- The depth of the value of a field. -/
def StructField.depth : StructField → Nat
  | .mk _ _ _ _ v => v.depth
end

/-- The depth of an `any`. -/
def depthAny : Option Value → Nat
  | none => 0
  | some v => v.depth

/-- The function `convert2urlencoded`. -/
def convert2urlencoded (i : Option Value) (isTheLast : Bool) : Result :=
  convert2urlencodedFuel (depthAny i + 1) i isTheLast

/-- The function `Convert2Urlencoded`. -/
def Convert2Urlencoded (i : Option Value) : Result :=
  convert2urlencoded i true

deriving instance DecidableEq for Except

/-! ## Definitions used by the statements -/

/-- The field is exported and not embedded. -/
def StructField.isPlain (f : StructField) : Bool :=
  f.PkgPath = "" && !f.Anonymous

/-- The field is exported, not embedded, and holds a `string`. -/
def StructField.isExportedString : StructField → Bool
  | .mk _ p a _ (.str _) => p = "" && !a
  | _ => false

/-- The string held by a field of type `string`. -/
def StructField.strValue : StructField → String
  | .mk _ _ _ _ (.str s) => s
  | _ => ""

/-- The resolved key of a field (the empty string when the field has none
because its `json` tag is `-`). -/
def StructField.key (f : StructField) : String :=
  match resolveName f with
  | none => ""
  | some (name, _) => name

/-- A string field is retained: it is not excluded by a `json` tag `-`, and it is
not an empty field whose tag tokens hold `omitempty`. -/
def StructField.retainedString (f : StructField) : Bool :=
  match resolveName f with
  | none => false
  | some (_, tags) => !(tagsContain tags omitemptyTag && f.strValue = "")

/-- The rendering `percentEncode(key) + "=" + percentEncode(value)` of a string
field. -/
def StructField.renderString (f : StructField) : String :=
  QueryEscape f.key ++ "=" ++ QueryEscape f.strValue

/-- The fields of the struct `A` of the doc comment of `Convert2Urlencoded`
(lines 40-49), restricted to the five fields of the documented scenario, with the
values of `a`. -/
def docExampleFields : List StructField := [
  .mk "Device" "" false [("urlencoded", "device"), ("json", "device")] (.str "device"),
  .mk "IP" "" false [("json", "ip")] (.str "ip"),
  .mk "Type" "" false [] (.str "type"),
  .mk "NotEmpty" "" false [("urlencoded", "notempty,omitempty")] (.str "notempty"),
  .mk "Empty0" "" false [("urlencoded", "empty0,omitempty")] (.str "")]

/-- The first comma-separated token of a tag value. -/
def firstToken (s : String) : String :=
  ⟨s.data.takeWhile (fun c => c ≠ ',')⟩

/-- A field with a `json` tag only. -/
def jsonOnlyField : StructField :=
  .mk "IP" "" false [("json", "ip")] (.str "1.2.3.4")

/-- A field without tags. -/
def untaggedField : StructField :=
  .mk "Type" "" false [] (.int 7)

/-- The fields of `B{X: "123", x: "321"}` of the doc comment (lines 54-62). -/
def docExampleB : List StructField := [
  .mk "X" "" false [] (.str "123"),
  .mk "x" "urlencode" false [] (.str "321")]

/-- A field whose `urlencoded` tag is `-`. -/
def dashUrlField : StructField :=
  .mk "Secret" "" false [("urlencoded", "-")] (.str "x")

/-- A field whose `json` tag is `-` and whose `urlencoded` tag is `k`. -/
def dashJsonWithUrlField : StructField :=
  .mk "Secret" "" false [("urlencoded", "k"), ("json", "-")] (.str "x")

/-- A field whose `json` tag is `-`, without `urlencoded` tag. -/
def dashJsonField : StructField :=
  .mk "Secret" "" false [("json", "-")] (.str "x")

/-- The effective annotation of a field: its `urlencoded` tag, or its `json` tag
when the `urlencoded` tag is absent. -/
def effectiveTag (f : StructField) : String :=
  if f.Tag.Get urlTag = "" then f.Tag.Get jsonTag else f.Tag.Get urlTag

/-- The annotation carries the `omitempty` modifier: one of its comma-separated
tokens after the first (the name) is `omitempty`. -/
def carriesOmitempty (tagValue : String) : Bool :=
  (splitTags tagValue).tail.contains "omitempty"

/-- The value is of scalar kind: a string, a signed or unsigned integer, a float
or a boolean. -/
def Value.isScalar : Value → Bool
  | .str _ => true
  | .int _ => true
  | .uint _ => true
  | .float _ _ => true
  | .bool _ => true
  | _ => false

/-- The scalar is empty for its kind: a string of length 0, a numeric zero, the
boolean `false`. -/
def Value.isEmptyScalar : Value → Bool
  | .str s => s = ""
  | .int n => n = 0
  | .uint n => n = 0
  | .float _ z => z
  | .bool b => !b
  | _ => false

/-- A field whose tag names it `omitempty` and has a further token. -/
def omitemptyNamedField : StructField :=
  .mk "Flag" "" false [("urlencoded", "omitempty,x")] (.str "")

/-- An integer field with the `omitempty` modifier and the value zero. -/
def zeroAgeField : StructField :=
  .mk "Age" "" false [("urlencoded", "age,omitempty")] (.int 0)

/-- An integer field with the `omitempty` modifier and the value 18. -/
def ageField : StructField :=
  .mk "Age" "" false [("urlencoded", "age,omitempty")] (.int 18)

/-- A string field `Name` with key `name` and value `x`. -/
def nameField : StructField :=
  .mk "Name" "" false [("urlencoded", "name")] (.str "x")

/-- A field `Tags []string` tagged `urlencoded:"tags,omitempty"` holding an empty
slice. -/
def emptyTagsField : StructField :=
  .mk "Tags" "" false [("urlencoded", "tags,omitempty")] (.list "[]" false [])

/-- A field `Attrs map[string]string` tagged `urlencoded:"attrs,omitempty"`
holding an empty map. -/
def emptyAttrsField : StructField :=
  .mk "Attrs" "" false [("urlencoded", "attrs,omitempty")] (.map "map[]" [])

/-- The zero `time.Time`, as far as the layout `time.RFC3339` is concerned. -/
def zeroTime : Time where
  Format := fun _ => "0001-01-01T00:00:00Z"
  String := "0001-01-01 00:00:00 +0000 UTC"
  IsZero := true

/-- A field `Born time.Time` tagged `urlencoded:"born,omitempty"` holding the zero
instant. -/
def zeroBornField : StructField :=
  .mk "Born" "" false [("urlencoded", "born,omitempty")] (.time zeroTime)

/-- The slice `[]string{"device", "ip", "type"}` of the doc comment (line 74). -/
def docExampleSlice : List String := ["device", "ip", "type"]

/-- The map `map[string]string{"a b&c": "v"}`. -/
def rawKeyMap : Value :=
  .map "map[a b&c:v]" [("a b&c", .str "v")]

/-- A field `At time.Time` tagged `urlencoded:"a b"`. -/
def rawKeyTimeField : StructField :=
  .mk "At" "" false [("urlencoded", "a b")] (.time zeroTime)

/-- A field `At string` tagged `urlencoded:"a b"`. -/
def escapedKeyField : StructField :=
  .mk "At" "" false [("urlencoded", "a b")] (.str "v")

/-- The value is a `time.Time`. -/
def Value.isTime : Value → Bool
  | .time _ => true
  | _ => false

/-- The field is excluded by the `json` tag `-` (line 223): it has no
`urlencoded` tag and its `json` tag is exactly `-`. -/
def StructField.excludedByJsonDash (f : StructField) : Bool :=
  f.Tag.Get urlTag = "" && f.Tag.Get jsonTag = "-"

/-- An exported field of composite kind (struct other than `time.Time`, map,
slice or array) that is not excluded by a `json` tag `-`. -/
def StructField.isCompositeField (f : StructField) : Bool :=
  f.PkgPath = "" && isCompositeKind f.value.Kind && !f.value.isTime && !f.excludedByJsonDash

/-- The map `map[string]string{"k": "v"}`. -/
def smallMap : Value :=
  .map "map[k:v]" [("k", .str "v")]

/-- A field `M map[string]string` tagged `json:"-"`. -/
def dashMapField : StructField :=
  .mk "M" "" false [("json", "-")] smallMap

/-- A field `M map[string]string` tagged `json:"m"`. -/
def keyedMapField : StructField :=
  .mk "M" "" false [("json", "m")] smallMap

/-- A field `Other map[string]string` tagged `urlencoded:"other,omitempty"`. -/
def renamedMapField : StructField :=
  .mk "Other" "" false [("urlencoded", "other,omitempty")] smallMap

/-- One pointer of a chain: its `fmt` text and, when the pointer's own type
implements `Urlencoded` (as `*T` does for a method with pointer receiver), the
string that its method `Convert2Urlencoded` returns. -/
structure PointerLink where
  text : String
  encoded : Option String

/-- The non-nil pointer described by a link, pointing to `v`. -/
def PointerLink.wrap (k : PointerLink) (v : Value) : Value :=
  match k.encoded with
  | none => .ptr k.text v
  | some e => .custom e (.ptr k.text v)

/-- A chain of non-nil pointers ending at `x`; the list gives the pointers,
outermost first. -/
def ptrChain : List PointerLink → Value → Value
  | [], x => x
  | k :: ks, x => k.wrap (ptrChain ks x)

/-- The value is one that every path of the encoder prints as a whole: a scalar,
a `time.Duration`, a channel or function, or a nil pointer. -/
def Value.isPrintedLeaf : Value → Bool
  | .str _ => true
  | .int _ => true
  | .uint _ => true
  | .bool _ => true
  | .float _ _ => true
  | .complex _ => true
  | .duration _ => true
  | .other _ => true
  | .nilPtr => true
  | _ => false

/-- The end `x` of a pointer chain for which the chain is transparent: `x` does
not implement `Urlencoded`, and when `x` is a variable of interface type it is
nil or holds a value that is printed as a whole. -/
def transparentTarget : Value → Bool
  | .custom _ _ => false
  | .iface y => y.isPrintedLeaf
  | _ => true

/-- A pointer to a variable of type `any` that holds `[]string{"a"}`. -/
def ptrToAnySlice : Value :=
  .ptr "0xc000012345" (.iface (.list "[a]" false [.str "a"]))

/-- A pointer to a variable of type `any` that holds the zero `time.Time`. -/
def ptrToAnyTime : Value :=
  .ptr "0xc000012345" (.iface (.time zeroTime))

/-- The struct `B{X: "123", x: "321"}` of the doc comment. -/
def docExampleBValue : Value :=
  .struct "" docExampleB

/-- A pointer `&b` to the struct `B{X: "123", x: "321"}` for a type `B` with a
method `func (b *B) Convert2Urlencoded() string` that returns `own`: the pointer
implements `Urlencoded`, the struct does not. -/
def selfEncodingPointer : Value :=
  .custom "own" (.ptr "&\x7b123 321\x7d" docExampleBValue)

/-- The instant `time.Date(2002, 5, 31, 0, 0, 0, 0, time.Local)` of `TestExample`,
in the zone `+08:00` of the test's comments: its renderings under the layouts
`20060102` and `time.RFC3339`. -/
def bornTime : Time where
  Format := fun layout =>
    if layout = "20060102" then "20020531"
    else if layout = RFC3339 then "2002-05-31T00:00:00+08:00"
    else ""
  String := "2002-05-31 00:00:00 +0800 CST"
  IsZero := false

/-- The field `Born` of the struct `User` of `TestExample` (line 61). -/
def bornField : StructField :=
  .mk "Born" "" false [("urlencoded", "born,omitempty"), ("time_format", "20060102")]
    (.time bornTime)

/-- The fields of the struct `User` of `TestExample` (lines 58-67). -/
def userFields : List StructField := [
  .mk "Name" "" false [("urlencoded", "name,omitempty")] (.str "equation"),
  .mk "Age" "" false [("urlencoded", "age,omitempty")] (.int 18),
  bornField]

/-- A field `Seen time.Time` without tags, holding `bornTime`. -/
def seenField : StructField :=
  .mk "Seen" "" false [] (.time bornTime)

/-- The map `map[string]map[string]string{"a": {"b": "c"}}`. -/
def mapOfMaps : Value :=
  .map "map[a:map[b:c]]" [("a", .map "map[b:c]" [("b", .str "c")])]

/-- The map `map[string]B{"a": {X: "123", x: "321"}}`. -/
def mapOfStructs : Value :=
  .map "map[a:\x7b123 321\x7d]" [("a", docExampleBValue)]

/-- The map `map[string]*B{"a": &B{X: "123", x: "321"}}`. -/
def mapOfStructPointers : Value :=
  .map "map[a:0xc000012345]" [("a", .ptr "&\x7b123 321\x7d" docExampleBValue)]

/-- The struct `struct { inner }` that embeds the struct type `inner`, whose name
is unexported, with the fields of `B`. -/
def embedsUnexported : Value :=
  .struct "\x7b\x7b123 321\x7d\x7d" [.mk "inner" "urlencode" true [] docExampleBValue]

/-- The value held by a slot is a scalar or a `time.Time`. -/
def Value.isScalarOrTime : Value → Bool
  | .str _ => true
  | .int _ => true
  | .uint _ => true
  | .bool _ => true
  | .float _ _ => true
  | .time _ => true
  | _ => false

/-- A slot of interface type that is nil or holds a scalar or a `time.Time`. -/
def isDynSlot : Value → Bool
  | .nilIface => true
  | .iface x => x.isScalarOrTime
  | _ => false

/-- The value text of a scalar or `time.Time` element: its `fmt` text, the
RFC3339 rendering for a `time.Time`. -/
def slotText : Value → String
  | .time t => t.Format RFC3339
  | v => v.Sprint

/-- What a slot contributes: nothing when it is nil, otherwise `=value`, followed
by `&` unless it is encoded as the last element. -/
def slotSegment (slot : Value) (isLast : Bool) : String :=
  match slot with
  | .iface x => "=" ++ QueryEscape (slotText x) ++ (if isLast then "" else "&")
  | _ => ""

/-- Concatenation of a list of strings. -/
def concatAll (ps : List String) : String :=
  ps.foldr (fun a b => a ++ b) ""

/-- The array `[10]any{"equation", "18", t}` of `TestExample` (lines 90-94): three
filled slots and seven nil slots. -/
def docExampleArray : List Value :=
  [.iface (.str "equation"), .iface (.str "18"), .iface (.time bornTime)] ++
    List.replicate 7 .nilIface

/-- The slice `[]any{"equation", 18, t}` of `TestExample` (lines 81-85). -/
def docExampleAnySlice : List Value :=
  [.iface (.str "equation"), .iface (.int 18), .iface (.time bornTime)]

/-- The value's type implements `Urlencoded`. -/
def Value.isCustom : Value → Bool
  | .custom _ _ => true
  | _ => false

/-- The dereferenced value is of a kind whose case in `convert2urlencoded`
consults `isTheLast` itself: everything but a map, a sequence and a nil
interface. -/
def Value.honoursLast : Value → Bool
  | .map _ _ => false
  | .list _ _ _ => false
  | .nilIface => false
  | .custom _ _ => false
  | .ptr _ _ => false
  | _ => true

/-- The value does not implement `Urlencoded` and is, behind its pointers, a
scalar, a `time.Time`, a struct or another value whose case honours
`isTheLast`. -/
def lastAware (v : Value) : Bool :=
  !v.isCustom && (deref v).honoursLast

/-- The element `e` of a sequence holds a value that honours `isTheLast` and is
encoded, as a last element, to the non-empty string `s`. -/
def ElementEncodes (e : Value) (s : String) : Prop :=
  ∃ w, e.Interface = some w ∧ lastAware w = true ∧
    convert2urlencoded (some w) true = .ok s ∧ s ≠ ""

/-- The map `map[string]string{"a": "1"}`. -/
def mapA : Value :=
  .map "map[a:1]" [("a", .str "1")]

/-- The map `map[string]string{"b": "2"}`. -/
def mapB : Value :=
  .map "map[b:2]" [("b", .str "2")]

/-- The slice `[]any{"x", nil}`. -/
def sliceWithTrailingNil : Value :=
  .list "[x <nil>]" false [.iface (.str "x"), .nilIface]

/-- The slice `[]any{B{X: "123", x: "321"}, 7}`. -/
def sliceOfStructAndInt : Value :=
  .list "" false [.iface docExampleBValue, .iface (.int 7)]

/-- The rendering of `d` nanoseconds in the unit `ns`, `us` or `ms` as the
specification words it: the decimal integer `d`, `d/1000` or `d/1000000`, the
division truncating toward zero, followed by the unit. -/
def specDurationText (unit : String) (d : Int) : String :=
  if unit = "ns" then toString d ++ "ns"
  else if unit = "us" then toString (Int.tdiv d 1000) ++ "us"
  else toString (Int.tdiv d 1000000) ++ "ms"

/-- The duration of -1.5 milliseconds. -/
def negativeDuration : Duration where
  ns := -1500000
  secondsF := "-0.001500"
  minutesF := "-0.000025"
  hoursF := "-0.000000"
  daysF := "-0.000000"

/-- A field `D time.Duration` tagged `urlencoded:"d" time_duration_format:"ms"`. -/
def millisField : StructField :=
  .mk "D" "" false [("urlencoded", "d"), ("time_duration_format", "ms")]
    (.duration negativeDuration)

/-- A field `D time.Duration` tagged
`urlencoded:"d,omitempty" time_duration_format:"us"`. -/
def microsField : StructField :=
  .mk "D" "" false [("urlencoded", "d,omitempty"), ("time_duration_format", "us")]
    (.duration negativeDuration)

/-- A field `N string` tagged `json:",omitempty"`, without `urlencoded` tag. -/
def commaJsonField : StructField :=
  .mk "N" "" false [("json", ",omitempty")] (.str "v")

/-- A field `N string` tagged `urlencoded:",omitempty"`. -/
def commaUrlField : StructField :=
  .mk "N" "" false [("urlencoded", ",omitempty")] (.str "v")

/-! ## Fuel: the recursion depth is bounded by `depth` -/

theorem depth_deref : ∀ v : Value, (deref v).depth = v.depth
  | .ptr _ e => by simp [deref, Value.depth, depth_deref e]
  | .custom _ b => by simp [deref, Value.depth, depth_deref b]
  | .str _ => rfl
  | .int _ => rfl
  | .uint _ => rfl
  | .bool _ => rfl
  | .float _ _ => rfl
  | .complex _ => rfl
  | .duration _ => rfl
  | .time _ => rfl
  | .other _ => rfl
  | .nilPtr => rfl
  | .nilIface => rfl
  | .iface _ => rfl
  | .list _ _ _ => rfl
  | .map _ _ => rfl
  | .struct _ _ => rfl

theorem depth_Interface_le (v : Value) : depthAny v.Interface ≤ v.depth := by
  cases v <;> simp [Value.Interface, depthAny, Value.depth]

theorem depth_Elem_le : ∀ (v e : Value), v.Elem = some e → e.depth ≤ v.depth
  | .ptr _ e', e, h => by
    simp [Value.Elem] at h
    subst h
    simp [Value.depth]
  | .custom _ b, e, h => by
    simp only [Value.Elem] at h
    simpa [Value.depth] using depth_Elem_le b e h
  | .str _, _, h => by simp [Value.Elem] at h
  | .int _, _, h => by simp [Value.Elem] at h
  | .uint _, _, h => by simp [Value.Elem] at h
  | .bool _, _, h => by simp [Value.Elem] at h
  | .float _ _, _, h => by simp [Value.Elem] at h
  | .complex _, _, h => by simp [Value.Elem] at h
  | .duration _, _, h => by simp [Value.Elem] at h
  | .time _, _, h => by simp [Value.Elem] at h
  | .other _, _, h => by simp [Value.Elem] at h
  | .nilPtr, _, h => by simp [Value.Elem] at h
  | .nilIface, _, h => by simp [Value.Elem] at h
  | .iface _, _, h => by simp [Value.Elem] at h
  | .list _ _ _, _, h => by simp [Value.Elem] at h
  | .map _ _, _, h => by simp [Value.Elem] at h
  | .struct _ _, _, h => by simp [Value.Elem] at h

theorem depth_reflectValueObject : reflectValueObject.depth = 1 := by
  decide

theorem StructField.depth_eq (f : StructField) : f.depth = f.value.depth := by
  cases f; rfl

theorem fieldPiece_congr (r1 r2 : Option Value → Bool → Result) (f : StructField)
    (h : ∀ j l, depthAny j ≤ f.depth → r1 j l = r2 j l) :
    fieldPiece r1 f = fieldPiece r2 f := by
  have key : r1 f.value.Interface true = r2 f.value.Interface true :=
    h _ _ (by rw [StructField.depth_eq]; exact depth_Interface_le _)
  unfold fieldPiece fieldInterface
  by_cases hp : f.PkgPath = ""
  · simp only [hp, if_true]
    split
    · rfl
    · split
      · rfl
      · split
        · split
          · rename_i heq; simp at heq
          · rfl
          · rename_i a _ heq
            simp only [Except.ok.injEq] at heq
            subst heq
            rw [key]
        · rfl
  · simp only [hp, if_false]

theorem structPieces_congr (r1 r2 : Option Value → Bool → Result) :
    ∀ fs : List StructField, (∀ j l, depthAny j ≤ depthFields fs → r1 j l = r2 j l) →
      structPieces r1 fs = structPieces r2 fs
  | [], _ => rfl
  | f :: fs, h => by
    have h1 : fieldPiece r1 f = fieldPiece r2 f :=
      fieldPiece_congr r1 r2 f (fun j l hj => h j l (by simp [depthFields]; omega))
    have h2 : structPieces r1 fs = structPieces r2 fs :=
      structPieces_congr r1 r2 fs (fun j l hj => h j l (by simp [depthFields]; omega))
    simp only [structPieces, h1, h2]

theorem sliceLoop_congr (r1 r2 : Option Value → Bool → Result) :
    ∀ (es : List Value) (l : Bool), (∀ j l, depthAny j ≤ depthList es → r1 j l = r2 j l) →
      sliceLoop r1 es l = sliceLoop r2 es l
  | [], _, _ => rfl
  | [e], l, h => by
    simp only [sliceLoop]
    exact h _ _ (by simp [depthList]; exact depth_Interface_le _)
  | e :: e2 :: rest, l, h => by
    have h1 : r1 e.Interface false = r2 e.Interface false :=
      h _ _ (by simp [depthList]; left; exact depth_Interface_le _)
    have h2 : sliceLoop r1 (e2 :: rest) l = sliceLoop r2 (e2 :: rest) l :=
      sliceLoop_congr r1 r2 (e2 :: rest) l (fun j l hj => h j l (by
        simp only [depthList] at hj ⊢; omega))
    simp only [sliceLoop, h1, h2]

theorem mapEntry_congr (r1 r2 : Option Value → Bool → Result) (key : String) (val : Value)
    (l : Nat) (h : ∀ j b, depthAny j ≤ val.depth + 1 → r1 j b = r2 j b) :
    mapEntry r1 key val l = mapEntry r2 key val l := by
  have hobj : ∀ b, r1 (some reflectValueObject) b = r2 (some reflectValueObject) b :=
    fun b => h _ _ (by simp [depthAny, depth_reflectValueObject])
  have hv : ∀ w, (if val.Kind = .Pointer then val.Elem else some val) = some w →
      w.depth ≤ val.depth := by
    intro w hw
    split at hw
    · exact depth_Elem_le _ _ hw
    · simp at hw; subst hw; exact le_refl _
  have hx : ∀ b, r1 ((if val.Kind = .Pointer then val.Elem else some val).bind Value.Interface) b
      = r2 ((if val.Kind = .Pointer then val.Elem else some val).bind Value.Interface) b := by
    intro b
    apply h
    cases hw : (if val.Kind = .Pointer then val.Elem else some val) with
    | none => simp [depthAny]
    | some w =>
      have := hv w hw
      have := depth_Interface_le w
      simp only [Option.bind]
      omega
  unfold mapEntry
  simp only
  split
  · simp only [hobj]
  · simp only [hobj]
  · split
    · rfl
    · rfl
    · split
      · rfl
      · simp only [hx]
  · rfl

theorem mapLoop_congr (r1 r2 : Option Value → Bool → Result) :
    ∀ es : List (String × Value), (∀ j b, depthAny j ≤ depthEntries es + 1 → r1 j b = r2 j b) →
      mapLoop r1 es = mapLoop r2 es
  | [], _ => rfl
  | (k, v) :: rest, h => by
    have h1 : mapEntry r1 k v rest.length = mapEntry r2 k v rest.length :=
      mapEntry_congr r1 r2 k v _ (fun j b hj => h j b (by simp only [depthEntries]; omega))
    have h2 : mapLoop r1 rest = mapLoop r2 rest :=
      mapLoop_congr r1 r2 rest (fun j b hj => h j b (by simp only [depthEntries]; omega))
    simp only [mapLoop, h1, h2]

theorem convertStep_congr (r1 r2 : Option Value → Bool → Result) (i : Option Value) (l : Bool)
    (h : ∀ j b, depthAny j < depthAny i → r1 j b = r2 j b) :
    convertStep r1 i l = convertStep r2 i l := by
  unfold convertStep
  split
  · rfl
  · rfl
  · rename_i v _
    have hd : (deref v).depth = depthAny (some v) := depth_deref v
    split
    · rfl
    · rename_i es heq
      rw [heq] at hd
      rw [mapLoop_congr r1 r2 es (fun j b hj => h j b (by
        simp only [Value.depth] at hd; omega))]
    · rfl
    · rename_i fs heq
      rw [heq] at hd
      rw [structPieces_congr r1 r2 fs (fun j b hj => h j b (by
        simp only [Value.depth] at hd; omega))]
    · rename_i es heq
      rw [heq] at hd
      rw [sliceLoop_congr r1 r2 es l (fun j b hj => h j b (by
        simp only [Value.depth] at hd; omega))]
    · rfl
    · rfl
    · rfl

theorem convert2urlencodedFuel_eq :
    ∀ (n m : Nat) (i : Option Value) (l : Bool), depthAny i < n → depthAny i < m →
      convert2urlencodedFuel n i l = convert2urlencodedFuel m i l
  | 0, _, _, _, hn, _ => absurd hn (Nat.not_lt_zero _)
  | _ + 1, 0, _, _, _, hm => absurd hm (Nat.not_lt_zero _)
  | n + 1, m + 1, i, l, hn, hm => by
    simp only [convert2urlencodedFuel]
    exact convertStep_congr _ _ i l (fun j b hj =>
      convert2urlencodedFuel_eq n m j b (by omega) (by omega))

/-- The fuel supplied by `convert2urlencoded` is enough: the function satisfies
the recursive equation of the Go function. -/
theorem convert2urlencoded_unfold (i : Option Value) (l : Bool) :
    convert2urlencoded i l = convertStep convert2urlencoded i l := by
  show convertStep (convert2urlencodedFuel (depthAny i)) i l = convertStep convert2urlencoded i l
  exact convertStep_congr _ _ i l (fun j b hj =>
    convert2urlencodedFuel_eq (depthAny i) (depthAny j + 1) j b hj (by omega))

/-! ## The model never runs out of fuel -/

theorem isEmptyValue_fuel (c : Bool) : ∀ v : Value, isEmptyValue c v ≠ .error .outOfFuel
  | .custom _ b => by
    simp only [isEmptyValue]
    exact isEmptyValue_fuel c b
  | .str _ | .int _ | .uint _ | .bool _ | .float _ _ | .duration _ | .nilPtr | .ptr _ _
  | .nilIface | .iface _ | .list _ _ _ | .map _ _ => by simp [isEmptyValue]
  | .complex _ | .time _ | .other _ | .struct _ _ => by
    cases c <;> simp [isEmptyValue]

theorem fieldPiece_fuel (r : Option Value → Bool → Result) (f : StructField)
    (h : ∀ j b, depthAny j ≤ f.depth → r j b ≠ .error .outOfFuel) :
    fieldPiece r f ≠ .error .outOfFuel := by
  have key : r f.value.Interface true ≠ .error .outOfFuel :=
    h _ _ (by rw [StructField.depth_eq]; exact depth_Interface_le _)
  have hk : ∀ tags, keepField tags f ≠ .error .outOfFuel := by
    intro tags
    unfold keepField
    split
    · simp
    · have := isEmptyValue_fuel (decide (f.PkgPath = "")) f.value
      split
      · simp
      · rename_i e he
        intro hc
        simp only [Except.error.injEq] at hc
        subst hc
        exact this he
  unfold fieldPiece fieldInterface
  by_cases hp : f.PkgPath = ""
  · simp only [hp, if_true]
    split
    · simp
    · split
      · simp
      · split
        · split
          · rename_i heq; simp at heq
          · simp
          · rename_i a _ heq
            simp only [Except.ok.injEq] at heq
            subst heq
            split
            · rename_i e he
              intro hc
              simp only [Except.error.injEq] at hc
              subst hc
              exact key he
            · simp
        · rename_i name tags _ _
          have := hk tags
          split
          · rename_i e he
            intro hc
            simp only [Except.error.injEq] at hc
            subst hc
            exact this he
          · simp
          · simp
  · simp only [hp, if_false]
    split
    · simp
    · split
      · simp
      · split
        · simp
        · rename_i name tags _ _
          have := hk tags
          split
          · rename_i e he
            intro hc
            simp only [Except.error.injEq] at hc
            subst hc
            exact this he
          · simp
          · simp

theorem structPieces_fuel (r : Option Value → Bool → Result) :
    ∀ fs : List StructField, (∀ j b, depthAny j ≤ depthFields fs → r j b ≠ .error .outOfFuel) →
      structPieces r fs ≠ .error .outOfFuel
  | [], _ => by simp [structPieces]
  | f :: fs, h => by
    have h1 : fieldPiece r f ≠ .error .outOfFuel :=
      fieldPiece_fuel r f (fun j b hj => h j b (by simp [depthFields]; omega))
    have h2 : structPieces r fs ≠ .error .outOfFuel :=
      structPieces_fuel r fs (fun j b hj => h j b (by simp [depthFields]; omega))
    simp only [structPieces]
    split
    · rename_i e he
      intro hc
      simp only [Except.error.injEq] at hc
      subst hc
      exact h1 he
    · exact h2
    · split
      · rename_i e he
        intro hc
        simp only [Except.error.injEq] at hc
        subst hc
        exact h2 he
      · simp

theorem sliceLoop_fuel (r : Option Value → Bool → Result) :
    ∀ (es : List Value) (l : Bool),
      (∀ j b, depthAny j ≤ depthList es → r j b ≠ .error .outOfFuel) →
      sliceLoop r es l ≠ .error .outOfFuel
  | [], _, _ => by simp [sliceLoop]
  | [e], l, h => by
    simp only [sliceLoop]
    exact h _ _ (by simp [depthList]; exact depth_Interface_le _)
  | e :: e2 :: rest, l, h => by
    have h1 : r e.Interface false ≠ .error .outOfFuel :=
      h _ _ (by simp [depthList]; left; exact depth_Interface_le _)
    have h2 : sliceLoop r (e2 :: rest) l ≠ .error .outOfFuel :=
      sliceLoop_fuel r (e2 :: rest) l (fun j b hj => h j b (by
        simp only [depthList] at hj ⊢; omega))
    simp only [sliceLoop]
    split
    · rename_i e he
      intro hc
      simp only [Except.error.injEq] at hc
      subst hc
      exact h1 he
    · split
      · rename_i e he
        intro hc
        simp only [Except.error.injEq] at hc
        subst hc
        exact h2 he
      · simp

theorem mapEntry_fuel (r : Option Value → Bool → Result) (key : String) (val : Value)
    (l : Nat) (h : ∀ j b, depthAny j ≤ val.depth + 1 → r j b ≠ .error .outOfFuel) :
    mapEntry r key val l ≠ .error .outOfFuel := by
  have hobj : ∀ b, r (some reflectValueObject) b ≠ .error .outOfFuel :=
    fun b => h _ _ (by simp [depthAny, depth_reflectValueObject])
  have hx : ∀ b, r ((if val.Kind = .Pointer then val.Elem else some val).bind Value.Interface) b
      ≠ .error .outOfFuel := by
    intro b
    apply h
    cases hw : (if val.Kind = .Pointer then val.Elem else some val) with
    | none => simp [depthAny]
    | some w =>
      have h1 : w.depth ≤ val.depth := by
        split at hw
        · exact depth_Elem_le _ _ hw
        · simp at hw; subst hw; exact le_refl _
      have := depth_Interface_le w
      simp only [Option.bind]
      omega
  unfold mapEntry
  simp only
  split
  · split
    · exact hobj _
    · exact hobj _
  · split
    · exact hobj _
    · exact hobj _
  · split
    · split <;> simp
    · split <;> simp
    · split
      · split <;> simp
      · split
        · exact hx _
        · exact hx _
  · split <;> simp

theorem mapLoop_fuel (r : Option Value → Bool → Result) :
    ∀ es : List (String × Value),
      (∀ j b, depthAny j ≤ depthEntries es + 1 → r j b ≠ .error .outOfFuel) →
      mapLoop r es ≠ .error .outOfFuel
  | [], _ => by simp [mapLoop]
  | (k, v) :: rest, h => by
    have h1 : mapEntry r k v rest.length ≠ .error .outOfFuel :=
      mapEntry_fuel r k v _ (fun j b hj => h j b (by simp only [depthEntries]; omega))
    have h2 : mapLoop r rest ≠ .error .outOfFuel :=
      mapLoop_fuel r rest (fun j b hj => h j b (by simp only [depthEntries]; omega))
    simp only [mapLoop]
    split
    · rename_i e he
      intro hc
      simp only [Except.error.injEq] at hc
      subst hc
      exact h1 he
    · split
      · rename_i e he
        intro hc
        simp only [Except.error.injEq] at hc
        subst hc
        exact h2 he
      · simp

theorem convertStep_fuel (r : Option Value → Bool → Result) (i : Option Value) (l : Bool)
    (h : ∀ j b, depthAny j < depthAny i → r j b ≠ .error .outOfFuel) :
    convertStep r i l ≠ .error .outOfFuel := by
  unfold convertStep
  split
  · simp
  · simp
  · rename_i v _
    have hd : (deref v).depth = depthAny (some v) := depth_deref v
    split
    · split <;> simp
    · rename_i es heq
      rw [heq] at hd
      exact mapLoop_fuel r es (fun j b hj => h j b (by
        simp only [Value.depth] at hd; omega))
    · simp only
      split <;> simp
    · rename_i fs heq
      rw [heq] at hd
      have := structPieces_fuel r fs (fun j b hj => h j b (by
        simp only [Value.depth] at hd; omega))
      split
      · rename_i e he
        intro hc
        simp only [Except.error.injEq] at hc
        subst hc
        exact this he
      · simp only
        split <;> simp
    · rename_i es heq
      rw [heq] at hd
      exact sliceLoop_fuel r es l (fun j b hj => h j b (by
        simp only [Value.depth] at hd; omega))
    · simp
    · split
      · split <;> simp
      · split <;> (split <;> simp)
    · split <;> simp

theorem convert2urlencodedFuel_fuel :
    ∀ (n : Nat) (i : Option Value) (l : Bool), depthAny i < n →
      convert2urlencodedFuel n i l ≠ .error .outOfFuel
  | 0, _, _, hn => absurd hn (Nat.not_lt_zero _)
  | n + 1, i, l, hn => by
    simp only [convert2urlencodedFuel]
    exact convertStep_fuel _ i l (fun j b hj => convert2urlencodedFuel_fuel n j b (by omega))

/-- The function `convert2urlencoded` of the model is total: on every value it
returns a string or panics; the fuel it supplies to itself never runs out. -/
theorem convert2urlencoded_total (i : Option Value) (l : Bool) :
    (∃ s, convert2urlencoded i l = .ok s) ∨ convert2urlencoded i l = .error .panic := by
  have h := convert2urlencodedFuel_fuel (depthAny i + 1) i l (Nat.lt_succ_self _)
  unfold convert2urlencoded
  cases hc : convert2urlencodedFuel (depthAny i + 1) i l with
  | ok s => exact Or.inl ⟨s, rfl⟩
  | error e =>
    cases e with
    | panic => exact Or.inr rfl
    | outOfFuel => exact absurd hc h

/-! ## General lemmas -/

theorem intercalate_go_append (sep x : String) :
    ∀ (as : List String) (y : String),
      String.intercalate.go (x ++ y) sep as = x ++ String.intercalate.go y sep as
  | [], _ => rfl
  | a :: as, y => by
    simp only [String.intercalate.go]
    rw [← intercalate_go_append sep x as (y ++ sep ++ a)]
    simp only [String.append_assoc]

theorem Join_eq_intercalate (sep : String) :
    ∀ ps : List String, Join ps sep = sep.intercalate ps
  | [] => rfl
  | [a] => rfl
  | a :: b :: rest => by
    have ih := Join_eq_intercalate sep (b :: rest)
    simp only [Join, ih, String.intercalate, String.intercalate.go]
    rw [← intercalate_go_append]

theorem intercalate_cons_cons (sep a b : String) (rest : List String) :
    sep.intercalate (a :: b :: rest) = a ++ sep ++ sep.intercalate (b :: rest) := by
  rw [← Join_eq_intercalate, ← Join_eq_intercalate]
  rfl

theorem string_length_eq_zero (s : String) : (s.length == 0) = decide (s = "") := by
  cases s with
  | mk d =>
    cases d with
    | nil => rfl
    | cons c cs =>
      have h1 : (String.mk (c :: cs)).length = cs.length + 1 := rfl
      have h2 : String.mk (c :: cs) ≠ "" := by
        intro h
        have := congrArg String.data h
        simp at this
      simp [h1, h2]

theorem convert2urlencoded_struct (text : String) (fs : List StructField) (l : Bool) :
    convert2urlencoded (some (.struct text fs)) l =
      match structPieces convert2urlencoded fs with
      | .error e => .error e
      | .ok pieces =>
        if !l && Join pieces "&" ≠ "" then .ok (Join pieces "&" ++ "&")
        else .ok (Join pieces "&") := by
  rw [convert2urlencoded_unfold]
  rfl

theorem convert2urlencoded_str (s : String) (l : Bool) :
    convert2urlencoded (some (.str s)) l =
      if l then .ok ("=" ++ QueryEscape s) else .ok ("=" ++ QueryEscape s ++ "&") := by
  rw [convert2urlencoded_unfold]
  rfl

theorem convert2urlencoded_list (text : String) (basic : Bool) (es : List Value) (l : Bool) :
    convert2urlencoded (some (.list text basic es)) l = sliceLoop convert2urlencoded es l := by
  rw [convert2urlencoded_unfold]
  rfl

theorem convert2urlencoded_map (text : String) (es : List (String × Value)) (l : Bool) :
    convert2urlencoded (some (.map text es)) l = mapLoop convert2urlencoded es := by
  rw [convert2urlencoded_unfold]
  rfl

theorem upperhex_ne_amp (n : Nat) : upperhex n ≠ '&' := by
  unfold upperhex
  by_cases h : n < 16
  · interval_cases n <;> decide
  · have : "0123456789ABCDEF".data.length ≤ n := by
      have : "0123456789ABCDEF".data.length = 16 := rfl
      omega
    rw [List.getD_eq_default _ _ this]
    decide

theorem amp_not_mem_escapeChar (c : Char) : '&' ∉ escapeChar c := by
  unfold escapeChar
  by_cases hs : shouldEscape c = true
  · by_cases hsp : c = ' '
    · subst hsp
      decide
    · simp only [hs, if_true, hsp, if_false, List.mem_flatMap, not_exists, not_and]
      intro b _ hb
      simp only [escapeByte, List.mem_cons, List.mem_singleton, List.not_mem_nil, or_false] at hb
      rcases hb with hb | hb | hb
      · exact absurd hb (by decide)
      · exact upperhex_ne_amp _ hb.symm
      · exact upperhex_ne_amp _ hb.symm
  · simp only [hs]
    intro hm
    simp only [Bool.false_eq_true, if_false, List.mem_singleton] at hm
    subst hm
    exact hs (by decide)

theorem amp_not_mem_QueryEscape (s : String) : '&' ∉ (QueryEscape s).data := by
  unfold QueryEscape
  simp only [List.mem_flatMap, not_exists, not_and]
  intro c _
  exact amp_not_mem_escapeChar c

theorem intercalate_amp_outer :
    ∀ ps : List String, (∀ p ∈ ps, p ≠ "" ∧ '&' ∉ p.data) →
      (ps ≠ [] → ("&".intercalate ps).data ≠ []) ∧
      ("&".intercalate ps).data.head? ≠ some '&' ∧
      ("&".intercalate ps).data.getLast? ≠ some '&'
  | [], _ => by
    refine ⟨fun h => absurd rfl h, ?_, ?_⟩ <;> simp [String.intercalate]
  | [p], h => by
    obtain ⟨hne, hamp⟩ := h p (List.mem_singleton_self p)
    have hd : p.data ≠ [] := fun e => hne (String.ext e)
    have hi : "&".intercalate [p] = p := rfl
    rw [hi]
    refine ⟨fun _ => hd, ?_, ?_⟩
    · intro hh
      exact hamp (List.mem_of_mem_head? hh)
    · intro hh
      exact hamp (List.mem_of_mem_getLast? hh)
  | p :: q :: rest, h => by
    obtain ⟨hne, hamp⟩ := h p (List.mem_cons_self _ _)
    have hd : p.data ≠ [] := fun e => hne (String.ext e)
    obtain ⟨ih0, _, ih2⟩ :=
      intercalate_amp_outer (q :: rest) (fun x hx => h x (List.mem_cons_of_mem _ hx))
    have ih0 := ih0 (List.cons_ne_nil _ _)
    rw [intercalate_cons_cons]
    simp only [String.data_append]
    refine ⟨by simp [hd], ?_, ?_⟩
    · intro hh
      cases hp : p.data with
      | nil => exact hd hp
      | cons c cs =>
        rw [hp] at hh
        simp only [List.cons_append, List.head?_cons, Option.some.injEq] at hh
        exact hamp (by rw [hp, hh]; exact List.mem_cons_self _ _)
    · rw [List.getLast?_append_of_ne_nil _ ih0]
      exact ih2

/-! ## C1: structs of exported string fields -/

theorem fieldPiece_exportedString (rec : Option Value → Bool → Result) (f : StructField)
    (h : f.isExportedString = true) :
    fieldPiece rec f = .ok (if f.retainedString then some f.renderString else none) := by
  obtain ⟨n, p, a, t, v⟩ := f
  cases v <;> simp [StructField.isExportedString] at h
  rename_i s
  obtain ⟨hp, ha⟩ := h
  subst hp ha
  unfold fieldPiece StructField.retainedString StructField.renderString StructField.key
  simp only [StructField.PkgPath, StructField.Anonymous, StructField.value, Value.Kind,
    StructField.strValue]
  cases hr : resolveName (.mk n "" false t (.str s)) with
  | none => simp
  | some nt =>
    obtain ⟨name, tags⟩ := nt
    simp only [isCompositeKind, keepField, fieldInterface, StructField.PkgPath,
      StructField.value, isEmptyValue, string_length_eq_zero, Value.Interface,
      fieldValueText, SprintAny, Value.Sprint]
    by_cases h1 : tagsContain tags omitemptyTag = true
    · by_cases h2 : s = ""
      · simp [h1, h2]
      · simp [h1, h2, Value.Sprint]
    · simp [h1, Value.Sprint]

theorem structPieces_exportedString (rec : Option Value → Bool → Result) :
    ∀ fs : List StructField, (∀ f ∈ fs, f.isExportedString = true) →
      structPieces rec fs =
        .ok ((fs.filter StructField.retainedString).map StructField.renderString)
  | [], _ => rfl
  | f :: fs, h => by
    have h1 := fieldPiece_exportedString rec f (h f (List.mem_cons_self _ _))
    have h2 := structPieces_exportedString rec fs (fun g hg => h g (List.mem_cons_of_mem _ hg))
    simp only [structPieces, h1, h2]
    by_cases hr : f.retainedString = true
    · simp [hr]
    · simp [hr]

theorem renderString_no_amp (f : StructField) :
    f.renderString ≠ "" ∧ '&' ∉ f.renderString.data := by
  unfold StructField.renderString
  constructor
  · intro h
    have := congrArg String.data h
    simp [String.data_append] at this
  · simp only [String.data_append, List.mem_append, not_or]
    exact ⟨⟨amp_not_mem_QueryEscape _, by decide⟩, amp_not_mem_QueryEscape _⟩

/-- C1: for every struct whose fields are all exported, non-embedded `string`
fields, `Convert2Urlencoded` returns the retained fields in declaration order,
each rendered as `percentEncode(key) + "=" + percentEncode(value)`, joined by
`&` (hence the empty string when no field is retained); the result neither
starts nor ends with `&`. -/
theorem struct_of_strings_encoding (text : String) (fs : List StructField)
    (h : ∀ f ∈ fs, f.isExportedString = true) :
    Convert2Urlencoded (some (.struct text fs)) =
      .ok ("&".intercalate
        ((fs.filter StructField.retainedString).map StructField.renderString)) ∧
    ("&".intercalate
      ((fs.filter StructField.retainedString).map StructField.renderString)).data.head?
        ≠ some '&' ∧
    ("&".intercalate
      ((fs.filter StructField.retainedString).map StructField.renderString)).data.getLast?
        ≠ some '&' := by
  refine ⟨?_, (intercalate_amp_outer _ ?_).2⟩
  · unfold Convert2Urlencoded
    rw [convert2urlencoded_struct, structPieces_exportedString _ fs h]
    simp [Join_eq_intercalate]
  · intro p hp
    obtain ⟨f, _, rfl⟩ := List.mem_map.mp hp
    exact renderString_no_amp f

/-- C1, documented scenario: the struct `A` of the doc comment encodes to
`device=device&ip=ip&Type=type&notempty=notempty`. -/
theorem struct_of_strings_encoding_witness :
    (∀ f ∈ docExampleFields, f.isExportedString = true) ∧
    Convert2Urlencoded (some (.struct "" docExampleFields)) =
      .ok "device=device&ip=ip&Type=type&notempty=notempty" :=
  ⟨by decide, (struct_of_strings_encoding "" docExampleFields (by decide)).1.trans (by decide)⟩

/-! ## C2: key precedence -/

theorem splitChars_head (cs : List Char) :
    (splitChars ',' cs).headD [] = cs.takeWhile (fun c => c ≠ ',') := by
  induction cs with
  | nil => rfl
  | cons c cs ih =>
    by_cases hc : c = ','
    · simp [splitChars, hc]
    · simp only [splitChars, hc, if_false]
      cases hs : splitChars ',' cs with
      | nil =>
        have ih2 : cs.takeWhile (fun c => c ≠ ',') = [] := by rw [← ih, hs]; rfl
        rw [List.takeWhile_cons, if_pos (by simpa using hc), ih2]
        rfl
      | cons w ws =>
        have ih2 : cs.takeWhile (fun c => c ≠ ',') = w := by rw [← ih, hs]; rfl
        rw [List.takeWhile_cons, if_pos (by simpa using hc), ih2]
        rfl

theorem splitTags_head (s : String) : (splitTags s).headD "" = firstToken s := by
  unfold splitTags firstToken
  rw [← splitChars_head]
  cases splitChars ',' s.data <;> rfl

theorem isEmptyValue_canInterface (v : Value) : ∃ b, isEmptyValue true v = .ok b := by
  match v with
  | .custom _ b =>
    obtain ⟨r, hr⟩ := isEmptyValue_canInterface b
    exact ⟨r, by simp [isEmptyValue, hr]⟩
  | .str _ | .int _ | .uint _ | .bool _ | .float _ _ | .complex _ | .duration _ | .time _
  | .other _ | .nilPtr | .ptr _ _ | .nilIface | .iface _ | .list _ _ _ | .map _ _
  | .struct _ _ => simp [isEmptyValue]

/-- What an exported field of non-composite kind contributes: nothing when it is
omitted, and otherwise the piece built from its resolved key. -/
theorem fieldPiece_scalar (rec : Option Value → Bool → Result) (f : StructField)
    (name : String) (tags : List String)
    (hexp : f.PkgPath = "") (hscalar : isCompositeKind f.value.Kind = false)
    (hr : resolveName f = some (name, tags)) :
    fieldPiece rec f =
      .ok (if keepField tags f = .ok true
        then some (QueryEscape name ++ "=" ++ QueryEscape (fieldValueText f f.value.Interface))
        else none) := by
  unfold fieldPiece
  simp only [hexp, ne_eq, not_true_eq_false, false_and, if_false, hr, hscalar, fieldInterface,
    if_true]
  unfold keepField
  by_cases h1 : tagsContain tags omitemptyTag = true
  · obtain ⟨b, hb⟩ := isEmptyValue_canInterface f.value
    cases b <;> simp [h1, hexp, hb]
  · simp [h1]

theorem structPieces_skip (rec : Option Value → Bool → Result) (f : StructField)
    (hf : fieldPiece rec f = .ok none) (post : List StructField) :
    ∀ pre : List StructField,
      structPieces rec (pre ++ f :: post) = structPieces rec (pre ++ post)
  | [] => by simp [structPieces, hf]
  | g :: pre => by
    have ih := structPieces_skip rec f hf post pre
    simp only [List.cons_append, structPieces, List.append_eq, ih]

/-- C4, counterexample: a field whose `urlencoded` tag is exactly `-` is emitted,
under the key `-`; and a field whose `json` tag is exactly `-` is emitted when it
also has a `urlencoded` tag. -/
theorem dash_tag_counterexample :
    (dashUrlField.Tag.Get urlTag = "-" ∧
      Convert2Urlencoded (some (.struct "" [dashUrlField])) = .ok "-=x") ∧
    (dashJsonWithUrlField.Tag.Get jsonTag = "-" ∧
      Convert2Urlencoded (some (.struct "" [dashJsonWithUrlField])) = .ok "k=x") := by
  decide

/-- C4, amended: a field without `urlencoded` tag whose `json` tag is exactly `-`
is excluded unconditionally: it contributes no piece, so the struct is encoded as
if the field were not declared, whatever the field's value is. -/
theorem json_dash_excluded (f : StructField) (t1 t2 : String) (pre post : List StructField)
    (l : Bool) (hu : f.Tag.Get urlTag = "") (hj : f.Tag.Get jsonTag = "-") :
    fieldPiece convert2urlencoded f = .ok none ∧
    convert2urlencoded (some (.struct t1 (pre ++ f :: post))) l =
      convert2urlencoded (some (.struct t2 (pre ++ post))) l := by
  have hf : fieldPiece convert2urlencoded f = .ok none := by
    unfold fieldPiece resolveName
    simp [hu, hj]
  refine ⟨hf, ?_⟩
  simp only [convert2urlencoded_struct, structPieces_skip convert2urlencoded f hf post pre]

/-- C4, amended, at a concrete field: `Secret string` with tag `json:"-"` between
two other fields leaves no trace in the output. -/
theorem json_dash_excluded_witness :
    (dashJsonField.Tag.Get urlTag = "" ∧ dashJsonField.Tag.Get jsonTag = "-") ∧
    fieldPiece convert2urlencoded dashJsonField = .ok none ∧
    convert2urlencoded (some (.struct "" ([jsonOnlyField] ++ dashJsonField :: [untaggedField])))
        true =
      convert2urlencoded (some (.struct "" ([jsonOnlyField] ++ [untaggedField]))) true :=
  ⟨by decide, json_dash_excluded dashJsonField "" "" [jsonOnlyField] [untaggedField] true
    (by decide) (by decide)⟩

/-! ## C5: `omitempty` on scalar fields -/

theorem tagsContain_eq_contains (tag : String) :
    ∀ ts : List String, tagsContain ts tag = ts.contains tag
  | [] => rfl
  | t :: ts => by
    have ih := tagsContain_eq_contains tag ts
    by_cases h : t = tag
    · subst h
      simp [tagsContain]
    · have h2 : ¬ tag = t := fun e => h e.symm
      simp [tagsContain, h, h2, ih]

theorem splitChars_ne_nil (sep : Char) : ∀ cs : List Char, splitChars sep cs ≠ []
  | [] => by simp [splitChars]
  | c :: cs => by
    by_cases h : c = sep
    · simp [splitChars, h]
    · simp only [splitChars, h, if_false]
      cases splitChars sep cs <;> simp

theorem splitTags_eq_cons (s : String) : splitTags s = firstToken s :: (splitTags s).tail := by
  have h := splitTags_head s
  unfold splitTags at h ⊢
  cases hs : splitChars ',' s.data with
  | nil => exact absurd hs (splitChars_ne_nil _ _)
  | cons w ws =>
    rw [hs] at h
    simp only [List.map_cons, List.headD_cons] at h
    simp [h]

theorem splitChars_of_not_mem (sep : Char) :
    ∀ cs : List Char, sep ∉ cs → splitChars sep cs = [cs]
  | [], _ => rfl
  | c :: cs, h => by
    have hc : ¬ c = sep := fun e => h (by simp [e])
    have ih := splitChars_of_not_mem sep cs (fun hm => h (List.mem_cons_of_mem _ hm))
    simp [splitChars, hc, ih]

theorem carriesOmitempty_of_no_comma (s : String) (h : containsComma s = false) :
    carriesOmitempty s = false := by
  unfold carriesOmitempty splitTags
  unfold containsComma at h
  have hm : ',' ∉ s.data := by
    intro hm
    simp [List.contains_iff_exists_mem_beq] at h
    exact h hm
  rw [splitChars_of_not_mem _ _ hm]
  rfl

theorem tagsContain_splitTags (s : String) (hname : firstToken s ≠ "omitempty") :
    tagsContain (splitTags s) omitemptyTag = carriesOmitempty s := by
  rw [splitTags_eq_cons s]
  unfold carriesOmitempty
  simp only [tagsContain, omitemptyTag, hname, if_false, tagsContain_eq_contains]

/-- Under the two side conditions of C5, the tokens found by the resolution hold
`omitempty` exactly when the effective annotation carries the modifier. -/
theorem resolveName_omitempty (f : StructField)
    (hdash : ¬ (f.Tag.Get urlTag = "" ∧ f.Tag.Get jsonTag = "-"))
    (hname : firstToken (effectiveTag f) ≠ "omitempty") :
    ∃ tags, resolveName f = some (f.key, tags) ∧
      tagsContain tags omitemptyTag = carriesOmitempty (effectiveTag f) := by
  unfold StructField.key
  unfold effectiveTag at hname ⊢
  unfold resolveName
  simp only
  by_cases hu : f.Tag.Get urlTag = ""
  · have hj : f.Tag.Get jsonTag ≠ "-" := fun e => hdash ⟨hu, e⟩
    simp only [hu, if_true, hj, if_false] at hname ⊢
    by_cases hj0 : f.Tag.Get jsonTag = ""
    · simp only [hj0, if_true]
      exact ⟨[], rfl, by decide⟩
    · simp only [hj0, if_false]
      by_cases hc : containsComma (f.Tag.Get jsonTag) = true
      · simp only [hc, if_true]
        exact ⟨_, rfl, tagsContain_splitTags _ hname⟩
      · simp only [hc]
        refine ⟨[], rfl, ?_⟩
        rw [carriesOmitempty_of_no_comma _ (by simpa using hc)]
        rfl
  · simp only [hu, if_false] at hname ⊢
    by_cases hc : containsComma (f.Tag.Get urlTag) = true
    · simp only [hc, if_true]
      exact ⟨_, rfl, tagsContain_splitTags _ hname⟩
    · simp only [hc]
      refine ⟨[], rfl, ?_⟩
      rw [carriesOmitempty_of_no_comma _ (by simpa using hc)]
      rfl

theorem isEmptyValue_scalar (c : Bool) (v : Value) (hs : v.isScalar = true) :
    isEmptyValue c v = .ok v.isEmptyScalar := by
  cases v <;> simp [Value.isScalar] at hs
  · simp [isEmptyValue, Value.isEmptyScalar, string_length_eq_zero]
  all_goals simp [isEmptyValue, Value.isEmptyScalar, beq_eq_decide]

theorem fieldValueText_scalar (f : StructField) (v : Value) (hs : v.isScalar = true) :
    fieldValueText f v.Interface = v.Sprint := by
  cases v <;> simp [Value.isScalar] at hs <;> rfl

theorem isCompositeKind_scalar (v : Value) (hs : v.isScalar = true) :
    isCompositeKind v.Kind = false := by
  cases v <;> simp [Value.isScalar] at hs <;> rfl

/-- C5, counterexample: a field with `json:"-"` (no `urlencoded` tag) and a
non-empty value is left out although its annotation carries no `omitempty`
modifier; and an empty field tagged `urlencoded:"omitempty,x"`, whose name token
is `omitempty` and whose only modifier is `x`, is left out as well. -/
theorem omitempty_scalar_counterexample :
    (carriesOmitempty (effectiveTag dashJsonField) = false ∧
      dashJsonField.value.isEmptyScalar = false ∧
      Convert2Urlencoded (some (.struct "" [dashJsonField])) = .ok "") ∧
    (carriesOmitempty (effectiveTag omitemptyNamedField) = false ∧
      Convert2Urlencoded (some (.struct "" [omitemptyNamedField])) = .ok "") := by
  decide

/-- C5, amended: for every exported field of scalar kind that is not excluded by
a `json` tag `-` and whose annotation does not name the key `omitempty`, the
field is omitted if and only if its effective annotation carries the `omitempty`
modifier and its value is empty for its kind; in every other case it is emitted
as `percentEncode(key) + "=" + percentEncode(value)`. -/
theorem omitempty_scalar (rec : Option Value → Bool → Result) (f : StructField)
    (hexp : f.PkgPath = "") (hs : f.value.isScalar = true)
    (hdash : ¬ (f.Tag.Get urlTag = "" ∧ f.Tag.Get jsonTag = "-"))
    (hname : firstToken (effectiveTag f) ≠ "omitempty") :
    (fieldPiece rec f = .ok none ↔
      (carriesOmitempty (effectiveTag f) = true ∧ f.value.isEmptyScalar = true)) ∧
    (¬ (carriesOmitempty (effectiveTag f) = true ∧ f.value.isEmptyScalar = true) →
      fieldPiece rec f =
        .ok (some (QueryEscape f.key ++ "=" ++ QueryEscape f.value.Sprint))) := by
  obtain ⟨tags, hr, ht⟩ := resolveName_omitempty f hdash hname
  rw [fieldPiece_scalar rec f f.key tags hexp (isCompositeKind_scalar _ hs) hr,
    fieldValueText_scalar f _ hs]
  unfold keepField
  rw [ht, isEmptyValue_scalar _ _ hs]
  cases carriesOmitempty (effectiveTag f) <;> cases f.value.isEmptyScalar <;> simp

/-- C5, amended, at `Age int` tagged `urlencoded:"age,omitempty"`: the value 0 is
omitted, the value 18 is emitted as `age=18`. -/
theorem omitempty_scalar_witness :
    fieldPiece convert2urlencoded zeroAgeField = .ok none ∧
    fieldPiece convert2urlencoded ageField = .ok (some "age=18") :=
  ⟨(omitempty_scalar convert2urlencoded zeroAgeField (by decide) (by decide) (by decide)
      (by decide)).1.mpr (by decide),
   ((omitempty_scalar convert2urlencoded ageField (by decide) (by decide) (by decide)
      (by decide)).2 (by decide)).trans (by decide)⟩

/-! ## C6: `omitempty` on composite fields -/

/-- C6, the code at the failing inputs: a field tagged `omitempty` that holds an
empty slice, an empty map or the zero `time.Time` is empty for `isEmptyValue`,
yet it is not omitted. The empty slice and the empty map contribute an empty
piece, which leaves a trailing `&`; the zero instant is emitted in full. -/
theorem omitempty_composite_not_omitted :
    (isEmptyValue true emptyTagsField.value = .ok true ∧
      Convert2Urlencoded (some (.struct "" [nameField, emptyTagsField])) = .ok "name=x&" ∧
      Convert2Urlencoded (some (.struct "" [nameField])) = .ok "name=x") ∧
    (isEmptyValue true emptyAttrsField.value = .ok true ∧
      Convert2Urlencoded (some (.struct "" [nameField, emptyAttrsField])) = .ok "name=x&") ∧
    (isEmptyValue true zeroBornField.value = .ok true ∧
      Convert2Urlencoded (some (.struct "" [nameField, zeroBornField])) =
        .ok "name=x&born=0001-01-01T00%3A00%3A00Z") := by
  decide

/-! ## C7: sequences of strings -/

theorem sliceLoop_strings :
    ∀ ss : List String,
      sliceLoop convert2urlencoded (ss.map Value.str) true =
        .ok ("&".intercalate (ss.map (fun s => "=" ++ QueryEscape s)))
  | [] => rfl
  | [s] => by
    simp only [List.map, sliceLoop, Value.Interface, convert2urlencoded_str]
    rfl
  | s :: s2 :: rest => by
    have ih := sliceLoop_strings (s2 :: rest)
    simp only [List.map] at ih ⊢
    simp only [sliceLoop, Value.Interface, convert2urlencoded_str, ih, intercalate_cons_cons]
    simp [String.append_assoc]

/-- C7: for every sequence of strings `s1..sn`, `Convert2Urlencoded` returns the
segments `"=" + percentEncode(si)`, in order, joined by `&`: the empty string when
`n = 0`, no trailing `&`, and no key name on any element. -/
theorem slice_of_strings_encoding (text : String) (basic : Bool) (ss : List String) :
    Convert2Urlencoded (some (.list text basic (ss.map Value.str))) =
      .ok ("&".intercalate (ss.map (fun s => "=" ++ QueryEscape s))) ∧
    ("&".intercalate (ss.map (fun s => "=" ++ QueryEscape s))).data.getLast? ≠ some '&' := by
  refine ⟨?_, (intercalate_amp_outer _ ?_).2.2⟩
  · unfold Convert2Urlencoded
    rw [convert2urlencoded_list, sliceLoop_strings]
  · intro p hp
    obtain ⟨s, _, rfl⟩ := List.mem_map.mp hp
    constructor
    · intro h
      have := congrArg String.data h
      simp [String.data_append] at this
    · simp only [String.data_append, List.mem_append, not_or]
      exact ⟨by decide, amp_not_mem_QueryEscape _⟩

/-- C7, documented scenario: `["device", "ip", "type"]` encodes to
`=device&=ip&=type`, and the empty sequence to the empty string. -/
theorem slice_of_strings_encoding_witness :
    Convert2Urlencoded (some (.list "[device ip type]" false (docExampleSlice.map Value.str))) =
      .ok "=device&=ip&=type" ∧
    Convert2Urlencoded (some (.list "[]" false (([] : List String).map Value.str))) = .ok "" :=
  ⟨(slice_of_strings_encoding "[device ip type]" false docExampleSlice).1.trans (by decide),
   (slice_of_strings_encoding "[]" false []).1.trans (by decide)⟩

/-! ## C8: maps from strings to strings -/

theorem mapEntry_str (rec : Option Value → Bool → Result) (k v : String) (l : Nat) :
    mapEntry rec k (.str v) l =
      if l > 0 then .ok (k ++ "=" ++ QueryEscape v ++ "&") else .ok (k ++ "=" ++ QueryEscape v) := by
  rfl

theorem mapLoop_strings (rec : Option Value → Bool → Result) :
    ∀ es : List (String × String),
      mapLoop rec (es.map (fun e => (e.1, Value.str e.2))) =
        .ok ("&".intercalate (es.map (fun e => e.1 ++ "=" ++ QueryEscape e.2)))
  | [] => rfl
  | [(k, v)] => by
    simp only [List.map, mapLoop, mapEntry_str, List.length_nil, gt_iff_lt, lt_self_iff_false,
      if_false]
    simp [String.intercalate, String.intercalate.go]
  | (k, v) :: e2 :: rest => by
    have ih := mapLoop_strings rec (e2 :: rest)
    simp only [List.map] at ih ⊢
    rw [mapLoop, ih, mapEntry_str]
    simp [intercalate_cons_cons, String.append_assoc]

/-- C8: for every map from string keys to string values, visited in the order
`(k1,v1)..(kn,vn)`, `Convert2Urlencoded` returns the pieces
`ki + "=" + percentEncode(vi)` joined by `&`: every entry but the last is followed
by `&`, the last one is not, and the empty map gives the empty string. -/
theorem map_of_strings_encoding (text : String) (es : List (String × String)) :
    Convert2Urlencoded (some (.map text (es.map (fun e => (e.1, Value.str e.2))))) =
      .ok ("&".intercalate (es.map (fun e => e.1 ++ "=" ++ QueryEscape e.2))) := by
  unfold Convert2Urlencoded
  rw [convert2urlencoded_map, mapLoop_strings]

/-- C8, documented scenario: the map `{"device": "device"}` encodes to
`device=device`; the empty map encodes to the empty string. -/
theorem map_of_strings_encoding_witness :
    Convert2Urlencoded (some (.map "map[device:device]"
        ([("device", "device")].map (fun e => (e.1, Value.str e.2))))) = .ok "device=device" ∧
    Convert2Urlencoded (some (.map "map[]"
        (([] : List (String × String)).map (fun e => (e.1, Value.str e.2))))) = .ok "" :=
  ⟨(map_of_strings_encoding "map[device:device]" [("device", "device")]).trans (by decide),
   (map_of_strings_encoding "map[]" []).trans (by decide)⟩

/-! ## C9: escaping of keys -/

/-- C9, the code at the failing inputs: the key of a map entry and the key of a
`time.Time` field are written as they are, with their space and `&`, whereas the
same key on a string field is percent-encoded. -/
theorem keys_not_escaped :
    QueryEscape "a b&c" = "a+b%26c" ∧
    Convert2Urlencoded (some rawKeyMap) = .ok "a b&c=v" ∧
    Convert2Urlencoded (some (.struct "" [rawKeyTimeField])) = .ok "a b=0001-01-01T00%3A00%3A00Z" ∧
    Convert2Urlencoded (some (.struct "" [escapedKeyField])) = .ok "a+b=v" := by
  decide

/-! ## C10: typed nil pointers -/

/-- C10, the code at the failing inputs: a typed nil pointer, passed directly or
behind a further pointer, is encoded as `=` followed by the escaped text `<nil>`;
only the untyped `nil` gives the empty string. -/
theorem typed_nil_pointer_encoding :
    Convert2Urlencoded (some .nilPtr) = .ok "=%3Cnil%3E" ∧
    Convert2Urlencoded (some (.ptr "0xc000012345" .nilPtr)) = .ok "=%3Cnil%3E" ∧
    Convert2Urlencoded none = .ok "" := by
  decide

/-! ## C11: embedded structs -/

theorem resolveName_eq_none_iff (f : StructField) :
    resolveName f = none ↔ f.excludedByJsonDash = true := by
  unfold resolveName StructField.excludedByJsonDash
  simp only
  by_cases hu : f.Tag.Get urlTag = ""
  · by_cases hj : f.Tag.Get jsonTag = "-"
    · simp [hu, hj]
    · simp only [hu, if_true, hj, if_false, decide_True, decide_False, Bool.and_false]
      split_ifs <;> simp
  · simp only [hu, if_false, decide_False, Bool.false_and]
    split_ifs <;> simp

theorem Interface_of_composite (v : Value) (h : isCompositeKind v.Kind = true) :
    v.Interface = some v := by
  cases v <;> first | rfl | (simp [Value.Kind, isCompositeKind] at h)

/-- What an exported field of composite kind other than `time.Time` contributes
when it is not excluded: the encoding of its value with `isTheLast = true`. -/
theorem fieldPiece_composite (rec : Option Value → Bool → Result) (f : StructField)
    (h : f.isCompositeField = true) :
    fieldPiece rec f =
      match rec (some f.value) true with
      | .error e => .error e
      | .ok s => .ok (some s) := by
  unfold StructField.isCompositeField at h
  simp only [Bool.and_eq_true, decide_eq_true_eq, Bool.not_eq_true'] at h
  obtain ⟨⟨⟨hp, hk⟩, ht⟩, hd⟩ := h
  have hr : resolveName f ≠ none := by
    intro h0
    rw [resolveName_eq_none_iff] at h0
    rw [h0] at hd
    exact absurd hd (by decide)
  unfold fieldPiece fieldInterface
  rw [Interface_of_composite _ hk]
  cases hres : resolveName f with
  | none => exact absurd hres hr
  | some nt =>
    obtain ⟨name, tags⟩ := nt
    simp only [hp, ne_eq, not_true_eq_false, false_and, if_false, hk, if_true]
    split
    · rename_i heq; simp at heq
    · rename_i tt heq
      simp only [Except.ok.injEq, Option.some.injEq] at heq
      rw [heq] at ht
      simp [Value.isTime] at ht
    · rename_i a _ heq
      simp only [Except.ok.injEq] at heq
      subst heq
      rfl

theorem structPieces_replace (rec : Option Value → Bool → Result) (f g : StructField)
    (hfg : fieldPiece rec f = fieldPiece rec g) (post : List StructField) :
    ∀ pre : List StructField,
      structPieces rec (pre ++ f :: post) = structPieces rec (pre ++ g :: post)
  | [] => by simp only [List.nil_append, structPieces, hfg]
  | h :: pre => by
    have ih := structPieces_replace rec f g hfg post pre
    simp only [List.cons_append, structPieces, List.append_eq, ih]

/-- C12, counterexample: a map field tagged `json:"-"` contributes nothing,
whereas the same field tagged `json:"m"` contributes the encoding `k=v` of its
value: the key annotation of a composite field does have an effect. -/
theorem composite_field_counterexample :
    Convert2Urlencoded (some smallMap) = .ok "k=v" ∧
    dashMapField.value = keyedMapField.value ∧
    Convert2Urlencoded (some (.struct "" [dashMapField])) = .ok "" ∧
    Convert2Urlencoded (some (.struct "" [keyedMapField])) = .ok "k=v" :=
  ⟨by decide, rfl, by decide, by decide⟩

/-- C12, amended: for every exported field whose static kind is struct (other
than `time.Time`), map, slice or array and which is not excluded by a `json` tag
`-`, the piece the field contributes is exactly
`Convert2Urlencoded(field value)`; the field's identifier and tags have no other
effect, so two structs that differ only in the name or tags of such a field
encode to the same result. -/
theorem composite_field_piece (f g : StructField) (t1 t2 : String)
    (pre post : List StructField) (l : Bool)
    (hf : f.isCompositeField = true) (hg : g.isCompositeField = true)
    (hv : f.value = g.value) :
    fieldPiece convert2urlencoded f =
      (match Convert2Urlencoded (some f.value) with
        | .error e => .error e
        | .ok s => .ok (some s)) ∧
    convert2urlencoded (some (.struct t1 (pre ++ f :: post))) l =
      convert2urlencoded (some (.struct t2 (pre ++ g :: post))) l := by
  have h1 := fieldPiece_composite convert2urlencoded f hf
  have h2 := fieldPiece_composite convert2urlencoded g hg
  refine ⟨h1, ?_⟩
  have hfg : fieldPiece convert2urlencoded f = fieldPiece convert2urlencoded g := by
    rw [h1, h2, hv]
  simp only [convert2urlencoded_struct, structPieces_replace convert2urlencoded f g hfg post pre]

/-- C12, amended, at a map field: `M map[string]string` tagged `json:"m"` and
`Other map[string]string` tagged `urlencoded:"other,omitempty"`, holding the same
map, both contribute `k=v`. -/
theorem composite_field_piece_witness :
    fieldPiece convert2urlencoded keyedMapField = .ok (some "k=v") ∧
    convert2urlencoded (some (.struct "" ([nameField] ++ keyedMapField :: []))) true =
      convert2urlencoded (some (.struct "" ([nameField] ++ renamedMapField :: []))) true := by
  have h := composite_field_piece keyedMapField renamedMapField "" "" [nameField] [] true
    (by decide) (by decide) rfl
  exact ⟨h.1.trans (by decide), h.2⟩

/-! ## C13: values that encode themselves -/

/-- C13: for every value whose type implements `Urlencoded`, the recursive encoder
returns exactly the string produced by the value's own method, for both values of
`isTheLast` and whatever the underlying value is: nothing is added to it. -/
theorem custom_encoding_verbatim (encoded : String) (base : Value) (l : Bool) :
    convert2urlencoded (some (.custom encoded base)) l = .ok encoded := by
  rw [convert2urlencoded_unfold]
  rfl

/-! ## C14: pointers -/

theorem deref_wrap (k : PointerLink) (v : Value) : deref (k.wrap v) = deref v := by
  unfold PointerLink.wrap
  cases k.encoded <;> rfl

theorem deref_ptrChain :
    ∀ (ks : List PointerLink) (x : Value), deref (ptrChain ks x) = deref x
  | [], _ => rfl
  | k :: ks, x => by
    simp only [ptrChain, deref_wrap]
    exact deref_ptrChain ks x

/-- The body of `convert2urlencoded` depends on a value that does not implement
`Urlencoded` only through the value its pointers lead to. -/
theorem convertStep_deref_congr (r : Option Value → Bool → Result) (a b : Value) (l : Bool)
    (ha : ∀ e c, a ≠ .custom e c) (hb : ∀ e c, b ≠ .custom e c) (h : deref a = deref b) :
    convertStep r (some a) l = convertStep r (some b) l := by
  unfold convertStep
  split
  · rename_i heq
    cases heq
  · rename_i e c heq
    cases heq
    exact absurd rfl (ha e c)
  · rename_i heq
    cases heq
    rw [h]

theorem convertStep_iface_leaf (r : Option Value → Bool → Result) (y : Value) (l : Bool)
    (hy : y.isPrintedLeaf = true) :
    convertStep r (some (.iface y)) l = convertStep r (some y) l := by
  cases y <;> simp [Value.isPrintedLeaf] at hy <;>
    cases l <;> simp [convertStep, deref, typeSwitch, Value.Sprint]

/-- C14, counterexample: a pointer to a variable of interface type that holds a
slice, or a `time.Time`, is not encoded like the value itself: behind the pointer
the value is printed by `fmt` as a whole. And a pointer whose own type implements
`Urlencoded` while the struct it points to does not is encoded by its method,
whereas the struct is traversed. -/
theorem pointer_transparency_counterexample :
    (Convert2Urlencoded (some ptrToAnySlice) = .ok "=%5Ba%5D" ∧
      Convert2Urlencoded (some (.list "[a]" false [.str "a"])) = .ok "=a") ∧
    (Convert2Urlencoded (some ptrToAnyTime) = .ok "=0001-01-01+00%3A00%3A00+%2B0000+UTC" ∧
      Convert2Urlencoded (some (.time zeroTime)) = .ok "=0001-01-01T00%3A00%3A00Z") ∧
    (docExampleBValue.isCustom = false ∧
      Convert2Urlencoded (some selfEncodingPointer) = .ok "own" ∧
      Convert2Urlencoded (some docExampleBValue) = .ok "X=123") := by
  decide

/-- C14, amended: pointer transparency. For every value `x` that does not
implement `Urlencoded` and is not a variable of interface type holding a
composite, a `time.Time` or a pointer, and for every chain `p` of one or more
non-nil pointers ending at `x` whose outermost pointer `p` does not itself
implement `Urlencoded` (the pointers behind it may), the recursive encoder returns
the same result for `p` as for `x` passed directly, for both values of
`isTheLast`. -/
theorem pointer_transparency (k : PointerLink) (ks : List PointerLink) (x : Value) (l : Bool)
    (hk : k.encoded = none) (hx : transparentTarget x = true) :
    convert2urlencoded (some (ptrChain (k :: ks) x)) l = convert2urlencoded x.Interface l := by
  have hp : ∀ e c, ptrChain (k :: ks) x ≠ .custom e c := by
    intro e c h
    simp [ptrChain, PointerLink.wrap, hk] at h
  rw [convert2urlencoded_unfold, convert2urlencoded_unfold x.Interface]
  match x, hx with
  | .custom _ _, hx => simp [transparentTarget] at hx
  | .iface y, hx =>
    simp only [transparentTarget] at hx
    rw [convertStep_deref_congr _ _ (.iface y) l hp (by intro e c h; cases h)
      (deref_ptrChain _ _)]
    exact convertStep_iface_leaf _ y l hx
  | .nilIface, _ =>
    rw [convertStep_deref_congr _ _ .nilIface l hp (by intro e c h; cases h)
      (deref_ptrChain _ _)]
    rfl
  | .str _, _ | .int _, _ | .uint _, _ | .bool _, _ | .float _ _, _ | .complex _, _
  | .duration _, _ | .time _, _ | .other _, _ | .nilPtr, _ | .ptr _ _, _ | .list _ _ _, _
  | .map _ _, _ | .struct _ _, _ =>
    exact convertStep_deref_congr _ _ _ l hp (by intro e c h; cases h) (deref_ptrChain _ _)

/-- C14, amended, at the struct `B` of the doc comment: `&b` and `&&b` are encoded
like `b`, to `X=123`, also when the inner pointer `&b` implements `Urlencoded`
itself. -/
theorem pointer_transparency_witness :
    Convert2Urlencoded (some (.ptr "&\x7b123 321\x7d" docExampleBValue)) = .ok "X=123" ∧
    Convert2Urlencoded (some (.ptr "0xc000012345" (.ptr "&\x7b123 321\x7d" docExampleBValue))) =
      .ok "X=123" ∧
    Convert2Urlencoded (some (.ptr "0xc000012345" selfEncodingPointer)) = .ok "X=123" ∧
    Convert2Urlencoded (some docExampleBValue) = .ok "X=123" :=
  ⟨(pointer_transparency ⟨"&\x7b123 321\x7d", none⟩ [] docExampleBValue true rfl
      (by decide)).trans (by decide),
   (pointer_transparency ⟨"0xc000012345", none⟩ [⟨"&\x7b123 321\x7d", none⟩]
      docExampleBValue true rfl (by decide)).trans (by decide),
   (pointer_transparency ⟨"0xc000012345", none⟩ [⟨"&\x7b123 321\x7d", some "own"⟩]
      docExampleBValue true rfl (by decide)).trans (by decide),
   by decide⟩

/-! ## C15: fields of type `time.Time` -/

/-- C15: for every exported struct field of type `time.Time` with resolved key `k`
and value `t`, the piece contributed is `k + "=" + percentEncode(t.Format(L))`,
where the layout `L` is the field's `time_format` tag when it is non-empty and
`time.RFC3339` otherwise. -/
theorem time_field_piece (rec : Option Value → Bool → Result) (f : StructField)
    (k : String) (tags : List String) (t : Time)
    (hexp : f.PkgPath = "") (hv : f.value = .time t) (hr : resolveName f = some (k, tags)) :
    fieldPiece rec f =
      .ok (some (k ++ "=" ++ QueryEscape (t.Format
        (if f.Tag.Get timeFormatTag = "" then RFC3339 else f.Tag.Get timeFormatTag)))) := by
  unfold fieldPiece fieldInterface
  simp only [hexp, ne_eq, not_true_eq_false, false_and, if_false, hr, hv, Value.Kind,
    isCompositeKind, Value.Interface, if_true]
  rfl

/-- C15, documented scenario: the field `Born` of `User` contributes
`born=20020531`, an untagged field of the same instant contributes its RFC3339
rendering, and `User{Name: "equation", Age: 18, Born: 2002-05-31}` encodes to
`name=equation&age=18&born=20020531`. -/
theorem time_field_piece_witness :
    fieldPiece convert2urlencoded bornField = .ok (some "born=20020531") ∧
    fieldPiece convert2urlencoded seenField =
      .ok (some "Seen=2002-05-31T00%3A00%3A00%2B08%3A00") ∧
    Convert2Urlencoded (some (.struct "" userFields)) =
      .ok "name=equation&age=18&born=20020531" :=
  ⟨(time_field_piece convert2urlencoded bornField "born" ["born", "omitempty"] bornTime
      (by decide) rfl (by decide)).trans (by decide),
   (time_field_piece convert2urlencoded seenField "Seen" [] bornTime
      (by decide) rfl (by decide)).trans (by decide),
   by decide⟩

/-! ## C16: runtime panics -/

/-- C16, the code at the failing inputs: the recursive call on the `reflect.Value`
that the map case hands over panics, so that a map whose values are maps, structs
or pointers to structs makes the encoder panic; and so does a struct that embeds
a struct of unexported type. -/
theorem panics_on_acyclic_input :
    convert2urlencoded (some reflectValueObject) true = .error .panic ∧
    Convert2Urlencoded (some mapOfMaps) = .error .panic ∧
    Convert2Urlencoded (some mapOfStructs) = .error .panic ∧
    Convert2Urlencoded (some mapOfStructPointers) = .error .panic ∧
    Convert2Urlencoded (some embedsUnexported) = .error .panic := by
  decide

/-! ## C17: sequences of slots of interface type -/

theorem convert2urlencoded_none (l : Bool) : convert2urlencoded none l = .ok "" := by
  rw [convert2urlencoded_unfold]
  rfl

theorem eq_sign_append_ne_empty (s : String) : "=" ++ s ≠ "" := by
  intro h
  have := congrArg String.data h
  simp [String.data_append] at this

theorem convert2urlencoded_dynSlot (e : Value) (l : Bool) (h : isDynSlot e = true) :
    convert2urlencoded e.Interface l = .ok (slotSegment e l) := by
  cases e <;> simp [isDynSlot] at h
  · exact convert2urlencoded_none l
  · rename_i x
    rw [convert2urlencoded_unfold]
    cases x <;> simp [Value.isScalarOrTime] at h <;>
      cases l <;>
      simp [Value.Interface, convertStep, deref, slotSegment, slotText, Value.Sprint,
        eq_sign_append_ne_empty]

theorem sliceLoop_dynSlots :
    ∀ (slots : List Value) (l : Bool), (∀ s ∈ slots, isDynSlot s = true) →
      sliceLoop convert2urlencoded slots l =
        .ok (concatAll (slots.dropLast.map (fun s => slotSegment s false)) ++
          (match slots.getLast? with
            | none => ""
            | some s => slotSegment s l))
  | [], _, _ => rfl
  | [e], l, h => by
    simp only [sliceLoop, convert2urlencoded_dynSlot e l (h e (List.mem_singleton_self e))]
    simp [concatAll]
  | e :: e2 :: rest, l, h => by
    have ih := sliceLoop_dynSlots (e2 :: rest) l (fun s hs => h s (List.mem_cons_of_mem _ hs))
    rw [sliceLoop, convert2urlencoded_dynSlot e false (h e (List.mem_cons_self _ _)), ih]
    simp [concatAll, String.append_assoc]

theorem sliceLoop_nils (l : Bool) :
    ∀ n : Nat, sliceLoop convert2urlencoded (List.replicate n .nilIface) l = .ok ""
  | 0 => rfl
  | 1 => by
    simp only [List.replicate, sliceLoop, Value.Interface, convert2urlencoded_none]
  | n + 2 => by
    have ih := sliceLoop_nils l (n + 1)
    simp only [List.replicate] at ih ⊢
    rw [sliceLoop, ih]
    simp [Value.Interface, convert2urlencoded_none]

theorem sliceLoop_trailing_nils (x : Value) (n : Nat) (hx : x.isScalarOrTime = true) :
    ∀ (pre : List Value), (∀ s ∈ pre, isDynSlot s = true) →
      sliceLoop convert2urlencoded (pre ++ .iface x :: List.replicate (n + 1) .nilIface) true =
        .ok (concatAll (pre.map (fun s => slotSegment s false)) ++
          "=" ++ QueryEscape (slotText x) ++ "&")
  | [], _ => by
    have h1 := convert2urlencoded_dynSlot (.iface x) false (by simpa [isDynSlot] using hx)
    have h2 := sliceLoop_nils true (n + 1)
    simp only [List.replicate] at h2 ⊢
    simp only [List.nil_append]
    rw [sliceLoop, h1, h2]
    simp [concatAll, slotSegment]
  | p :: pre, h => by
    have ih := sliceLoop_trailing_nils x n hx pre (fun s hs => h s (List.mem_cons_of_mem _ hs))
    have h1 := convert2urlencoded_dynSlot p false (h p (List.mem_cons_self _ _))
    cases hpre : pre ++ .iface x :: List.replicate (n + 1) .nilIface with
    | nil => simp at hpre
    | cons q rest =>
      rw [hpre] at ih
      simp only [List.cons_append, hpre]
      rw [sliceLoop, h1, ih]
      simp [concatAll, String.append_assoc]

/-- C17: in a sequence of slots of interface type that are nil or hold a scalar or
a `time.Time`, a nil slot contributes the empty string and no separator, every
non-nil slot that is not the final one contributes `=value&`, and the final slot
contributes `=value` followed by `&` only when the sequence itself is not encoded
last; hence a sequence whose last filled slot is followed by nil slots encodes
with a trailing `&`. -/
theorem dynamic_slots_encoding (text : String) (basic : Bool) (slots : List Value) (l : Bool)
    (h : ∀ s ∈ slots, isDynSlot s = true) :
    convert2urlencoded (some (.list text basic slots)) l =
      .ok (concatAll (slots.dropLast.map (fun s => slotSegment s false)) ++
        (match slots.getLast? with
          | none => ""
          | some s => slotSegment s l)) ∧
    (∀ (pre : List Value) (x : Value) (n : Nat),
      slots = pre ++ .iface x :: List.replicate (n + 1) .nilIface →
      Convert2Urlencoded (some (.list text basic slots)) =
        .ok (concatAll (pre.map (fun s => slotSegment s false)) ++
          "=" ++ QueryEscape (slotText x) ++ "&")) := by
  constructor
  · rw [convert2urlencoded_list]
    exact sliceLoop_dynSlots slots l h
  · intro pre x n hs
    subst hs
    have hx : x.isScalarOrTime = true := by
      have := h (.iface x) (by simp)
      simpa [isDynSlot] using this
    unfold Convert2Urlencoded
    rw [convert2urlencoded_list]
    exact sliceLoop_trailing_nils x n hx pre (fun s hs => h s (by simp [hs]))

/-- C17, documented scenario: the array `[10]any{"equation", "18", t}` encodes with
a trailing `&`, the slice `[]any{"equation", 18, t}` without. -/
theorem dynamic_slots_encoding_witness :
    (∀ s ∈ docExampleArray, isDynSlot s = true) ∧
    Convert2Urlencoded (some (.list "" false docExampleArray)) =
      .ok ("=equation&=18&=" ++ QueryEscape (bornTime.Format RFC3339) ++ "&") ∧
    Convert2Urlencoded (some (.list "" false docExampleAnySlice)) =
      .ok ("=equation&=18&=" ++ QueryEscape (bornTime.Format RFC3339)) :=
  ⟨by decide,
   ((dynamic_slots_encoding "" false docExampleArray true (by decide)).2
      [.iface (.str "equation"), .iface (.str "18")] (.time bornTime) 6 rfl).trans (by decide),
   ((dynamic_slots_encoding "" false docExampleAnySlice true (by decide)).1).trans (by decide)⟩

/-! ## C18: the flag `isTheLast` -/

theorem deref_deref : ∀ v : Value, deref (deref v) = deref v
  | .ptr _ e => by simp only [deref]; exact deref_deref e
  | .custom _ b => by simp only [deref]; exact deref_deref b
  | .str _ | .int _ | .uint _ | .bool _ | .float _ _ | .complex _ | .duration _ | .time _
  | .other _ | .nilPtr | .nilIface | .iface _ | .list _ _ _ | .map _ _ | .struct _ _ => rfl

theorem deref_ne_custom : ∀ (v : Value) (e : String) (c : Value), deref v ≠ .custom e c
  | .ptr _ x, e, c => by simp only [deref]; exact deref_ne_custom x e c
  | .custom _ b, e, c => by simp only [deref]; exact deref_ne_custom b e c
  | .str _, _, _ | .int _, _, _ | .uint _, _, _ | .bool _, _, _ | .float _ _, _, _
  | .complex _, _, _ | .duration _, _, _ | .time _, _, _ | .other _, _, _ | .nilPtr, _, _
  | .nilIface, _, _ | .iface _, _, _ | .list _ _ _, _, _ | .map _ _, _, _
  | .struct _ _, _, _ => by simp [deref]

theorem convertStep_honoursLast (r : Option Value → Bool → Result) (w : Value) (s : String)
    (hw : w.honoursLast = true) (hd : deref w = w)
    (h : convertStep r (some w) true = .ok s) (hs : s ≠ "") :
    convertStep r (some w) false = .ok (s ++ "&") := by
  cases w <;> simp [Value.honoursLast] at hw
  case struct t fs =>
    simp only [convertStep, deref] at h ⊢
    cases hp : structPieces r fs with
    | error e => rw [hp] at h; simp at h
    | ok pieces =>
      rw [hp] at h
      simp only [Bool.not_true, Bool.false_and, Bool.false_eq_true, if_false,
        Except.ok.injEq] at h
      subst h
      simp [hs]
  case iface x =>
    cases x
    case list t b es =>
      cases b <;>
        (simp [convertStep, deref, typeSwitch] at h ⊢
         subst h
         rfl)
    all_goals
      simp [convertStep, deref, typeSwitch] at h ⊢
      subst h
      rfl
  all_goals
    simp [convertStep, deref, eq_sign_append_ne_empty] at h ⊢
    subst h
    rfl

theorem convert2urlencoded_lastAware (w : Value) (s : String) (hw : lastAware w = true)
    (h : convert2urlencoded (some w) true = .ok s) (hs : s ≠ "") :
    convert2urlencoded (some w) false = .ok (s ++ "&") := by
  unfold lastAware at hw
  simp only [Bool.and_eq_true, Bool.not_eq_true'] at hw
  have hc : ∀ e c, w ≠ .custom e c := by
    intro e c hwc
    rw [hwc] at hw
    simp [Value.isCustom] at hw
  have hcongr : ∀ l, convertStep convert2urlencoded (some w) l =
      convertStep convert2urlencoded (some (deref w)) l :=
    fun l => convertStep_deref_congr _ w (deref w) l hc (deref_ne_custom w) (deref_deref w).symm
  rw [convert2urlencoded_unfold, hcongr] at h ⊢
  exact convertStep_honoursLast _ (deref w) s hw.2 (deref_deref w) h hs

theorem sliceLoop_elements :
    ∀ (es : List Value) (ss : List String) (l : Bool), List.Forall₂ ElementEncodes es ss →
      sliceLoop convert2urlencoded es l =
        .ok ("&".intercalate ss ++ (if l || es.isEmpty then "" else "&"))
  | [], _, _, h => by
    cases h
    simp [sliceLoop, String.intercalate]
  | [e], _, l, h => by
    cases h with
    | cons h1 h2 =>
      cases h2
      obtain ⟨w, hi, hw, hc, hne⟩ := h1
      simp only [sliceLoop, hi]
      cases l
      · rw [convert2urlencoded_lastAware w _ hw hc hne]
        simp [String.intercalate, String.intercalate.go]
      · rw [hc]
        simp [String.intercalate, String.intercalate.go]
  | e :: e2 :: rest, _, l, h => by
    cases h with
    | cons h1 h2 =>
      cases h2 with
      | cons h2 h3 =>
        have ih := sliceLoop_elements (e2 :: rest) _ l (List.Forall₂.cons h2 h3)
        obtain ⟨w, hi, hw, hc, hne⟩ := h1
        rw [sliceLoop, hi, convert2urlencoded_lastAware w _ hw hc hne, ih,
          intercalate_cons_cons]
        simp [String.append_assoc]

/-- C18, counterexample: a map is encoded alike for both values of `isTheLast`, so
that the sequence of the maps `{"a": "1"}` and `{"b": "2"}` encodes to `a=1b=2`;
and a sequence that ends in a nil slot is encoded alike for both values of the
flag as well. -/
theorem isTheLast_counterexample :
    (convert2urlencoded (some mapA) true = .ok "a=1" ∧
      convert2urlencoded (some mapA) false = .ok "a=1" ∧
      Convert2Urlencoded (some (.list "" false [mapA, mapB])) = .ok "a=1b=2") ∧
    (convert2urlencoded (some sliceWithTrailingNil) true = .ok "=x&" ∧
      convert2urlencoded (some sliceWithTrailingNil) false = .ok "=x&") := by
  decide

/-- C18, amended: for every value `v` that does not implement `Urlencoded` and
is, behind its pointers, a scalar, a `time.Time`, a struct or a non-nil interface
value, if the encoding of `v` with `isTheLast = true` is a non-empty string `s`,
then its encoding with `isTheLast = false` is `s` followed by one `&`.
Consequently a sequence whose elements are such values with non-empty encodings
`s1..sn` encodes to `s1..sn` joined by `&`, followed by one more `&` when the
sequence is non-empty and not encoded last. -/
theorem isTheLast_appends_separator :
    (∀ (v : Value) (s : String), lastAware v = true →
      convert2urlencoded (some v) true = .ok s → s ≠ "" →
      convert2urlencoded (some v) false = .ok (s ++ "&")) ∧
    (∀ (text : String) (basic : Bool) (es : List Value) (ss : List String) (l : Bool),
      List.Forall₂ ElementEncodes es ss →
      convert2urlencoded (some (.list text basic es)) l =
        .ok ("&".intercalate ss ++ (if l || es.isEmpty then "" else "&"))) := by
  constructor
  · intro v s hv h hs
    exact convert2urlencoded_lastAware v s hv h hs
  · intro text basic es ss l h
    rw [convert2urlencoded_list]
    exact sliceLoop_elements es ss l h

/-- C18, amended, at concrete values: the struct `B{X: "123", x: "321"}` encodes
to `X=123` as a last element and to `X=123&` otherwise, and the slice
`[]any{B{...}, 7}` encodes to `X=123&=7`, followed by `&` when it is not last. -/
theorem isTheLast_appends_separator_witness :
    convert2urlencoded (some docExampleBValue) false = .ok "X=123&" ∧
    convert2urlencoded (some sliceOfStructAndInt) true = .ok "X=123&=7" ∧
    convert2urlencoded (some sliceOfStructAndInt) false = .ok "X=123&=7&" := by
  have hB : ElementEncodes (.iface docExampleBValue) "X=123" :=
    ⟨docExampleBValue, rfl, by decide, by decide, by decide⟩
  have h7 : ElementEncodes (.iface (.int 7)) "=7" :=
    ⟨.int 7, rfl, by decide, by decide, by decide⟩
  have hes : List.Forall₂ ElementEncodes [.iface docExampleBValue, .iface (.int 7)]
      ["X=123", "=7"] :=
    List.Forall₂.cons hB (List.Forall₂.cons h7 List.Forall₂.nil)
  exact ⟨isTheLast_appends_separator.1 docExampleBValue "X=123" (by decide) (by decide)
      (by decide),
    (isTheLast_appends_separator.2 "" false _ _ true hes).trans (by decide),
    (isTheLast_appends_separator.2 "" false _ _ false hes).trans (by decide)⟩

/-! ## C19: durations in integral units -/

theorem formatDuration_integral (unit : String) (td : Duration)
    (hunit : unit = "ns" ∨ unit = "us" ∨ unit = "ms") :
    formatDuration unit td = specDurationText unit td.ns := by
  rcases hunit with h | h | h <;> subst h <;>
    simp [formatDuration, specDurationText, goDiv]

/-- C19: for every exported struct field of type `time.Duration` holding `d`
nanoseconds that is not omitted, with `time_duration_format` tag `ns`, `us` or
`ms`, the rendered value is the decimal integer `d`, `d/1000` or `d/1000000`
(division truncating toward zero) followed by the unit, and the piece is
`percentEncode(key) + "=" + percentEncode(that text)`. -/
theorem duration_integral_units (rec : Option Value → Bool → Result) (f : StructField)
    (k : String) (tags : List String) (td : Duration) (unit : String)
    (hexp : f.PkgPath = "") (hv : f.value = .duration td)
    (hr : resolveName f = some (k, tags))
    (hkeep : ¬ (tagsContain tags omitemptyTag = true ∧ td.ns = 0))
    (hu : f.Tag.Get timeDurationFormatTag = unit)
    (hunit : unit = "ns" ∨ unit = "us" ∨ unit = "ms") :
    fieldPiece rec f =
      .ok (some (QueryEscape k ++ "=" ++ QueryEscape (specDurationText unit td.ns))) := by
  have hk : keepField tags f = .ok true := by
    unfold keepField
    by_cases h1 : tagsContain tags omitemptyTag = true
    · have h2 : td.ns ≠ 0 := fun h0 => hkeep ⟨h1, h0⟩
      simp [h1, hv, isEmptyValue, h2]
    · simp [h1]
  rw [fieldPiece_scalar rec f k tags hexp (by rw [hv]; rfl) hr, hk]
  simp only [if_true, hv, Value.Interface, fieldValueText, hu,
    formatDuration_integral unit td hunit]

/-- C19 at a duration of -1.5 ms: with the unit `ms` the piece is `d=-1ms`, with
the unit `us` it is `d=-1500us`. -/
theorem duration_integral_units_witness :
    fieldPiece convert2urlencoded millisField = .ok (some "d=-1ms") ∧
    fieldPiece convert2urlencoded microsField = .ok (some "d=-1500us") :=
  ⟨(duration_integral_units convert2urlencoded millisField "d" [] negativeDuration "ms"
      (by decide) rfl (by decide) (by decide) (by decide) (by decide)).trans (by decide),
   (duration_integral_units convert2urlencoded microsField "d" ["d", "omitempty"]
      negativeDuration "us" (by decide) rfl (by decide) (by decide) (by decide)
      (by decide)).trans (by decide)⟩

/-! ## C20: tags that start with a comma -/

/-- C20, the code at the failing input: a field `N` tagged `json:",omitempty"`
(no `urlencoded` tag) resolves to the empty key and is emitted as `=v`, whereas
the same field tagged `urlencoded:",omitempty"` resolves to its identifier and is
emitted as `N=v`. -/
theorem comma_tag_key :
    (resolveName commaJsonField = some ("", ["", "omitempty"]) ∧
      Convert2Urlencoded (some (.struct "" [commaJsonField])) = .ok "=v") ∧
    (resolveName commaUrlField = some ("N", ["", "omitempty"]) ∧
      Convert2Urlencoded (some (.struct "" [commaUrlField])) = .ok "N=v") := by
  decide

end Urlencode
